import Mathlib

/-!
# shrubbery: a Map based plugin registry

A shallow embedding of `src/index.js`.  The module exports one function,
`shrubbery(mapping = {}, options = {})`, which closes over `mapping` (an object
whose properties are JavaScript `Map`s from a key to an array of plugins) and
over `options`, and returns the three operations `add`, `exec` and `remove`.

* the mutable `mapping` object is the explicit state `Store`;
* `options` is the record `Options`, passed to every operation;
* the two libraries the module requires (`millisecond` as `ms`, `borked`) and
  the behaviour of the user supplied functions are the fields of `World`;
* `exec` is an `async` function: its embedding returns the settlement of the
  promise together with the store it leaves behind and a record of every call
  it made, so that statements about "which handler was invoked with what" are
  statements about that record;
* the module is embedded at two levels.  The first treats the array stored
  under a key as a value.  The second (namespace `Heap`) keeps arrays as
  objects in a memory, so that it can say which array a running `exec` reads
  while `add` and `remove` are called; `Heap.heap_refines` shows that the two
  levels agree;
* `creade` tests `name in mapping`, which on a plain object is also true of the
  names inherited from `Object.prototype`.  The definitions `creade`, `add`,
  `remove` and `exec` are the module at the names that are own properties of
  `mapping` or no property of it; the namespace `Plain` is the module at every
  name, where an operation can throw, and `Plain.plain_add_of_ordinary`,
  `Plain.plain_remove_of_ordinary` and `Plain.plain_exec_run` show that the two
  agree away from the inherited names.
-/

namespace Shrubbery

/-! ## JavaScript values -/

/-- JavaScript values, as far as the registry can tell them apart.  Numbers are
the integer valued ones (`num`) and `NaN`; objects carry their properties;
functions are references. -/
inductive JSVal where
  | undefined
  | null
  | bool (b : Bool)
  | num (n : Int)
  | nan
  | str (s : String)
  | obj (props : List (String × JSVal))
  | func (ref : Nat)

namespace JSVal

/-- The abstract operation `ToBoolean`: `undefined`, `null`, `false`, `0`, `NaN`
and `""` are falsy, everything else (every object, every function) is truthy. -/
def truthy : JSVal → Bool
  | undefined => false
  | null => false
  | bool b => b
  | num n => !(n == 0)
  | nan => false
  | str s => !(s == "")
  | obj _ => true
  | func _ => true

/-- The operator `a || b`: `a` when it is truthy, `b` otherwise. -/
def or (a b : JSVal) : JSVal :=
  if a.truthy then a else b

/-- The test `typeof v === 'function'`. -/
def isFunction : JSVal → Bool
  | func _ => true
  | _ => false

/-- The value bound to a parameter declared as `param = dflt`: the default is
taken exactly when the argument is `undefined` (which is also what an omitted
argument is). -/
def orDefault (arg dflt : JSVal) : JSVal :=
  match arg with
  | undefined => dflt
  | v => v

end JSVal

/-! ## Plugins -/

/-- A function object handed to `add`: its identity (`ref`, what `!==`
compares) and the value read by `fn.timeout`. -/
structure JSFunction where
  ref : Nat
  timeout : JSVal

/-- The plugin configuration `opts` of `add`: the two properties the registry
reads (`priority`, an integer when present, and `timeout`) and the remaining
properties, which it never looks at. -/
structure Opts where
  priority : Option Int
  timeout : JSVal
  extra : List (String × JSVal)

namespace Opts

/-- The object literal `{}`, default of the parameter `opts`. -/
def empty : Opts := ⟨none, .undefined, []⟩

/-- The options object as the value a handler receives. -/
def toVal (o : Opts) : JSVal :=
  .obj ((match o.priority with
          | some p => [("priority", JSVal.num p)]
          | none => []) ++
        (match o.timeout with
          | .undefined => []
          | t => [("timeout", t)]) ++ o.extra)

end Opts

/-- The closure `runner` created by `add`: it captures `fn` and `opts`, and
carries the property `runner.timeout`. -/
structure Runner where
  fn : JSFunction
  opts : Opts
  timeout : JSVal

/-- One element `{ priority, runner, fn }` of the array stored under a key. -/
structure Entry where
  priority : Int
  runner : Runner
  fn : JSFunction

/-! ## The store -/

/-- An insertion ordered dictionary with string keys: the model of both a
JavaScript `Map` and of the own properties of the `mapping` object. -/
abbrev Dict (α : Type) := List (String × α)

namespace Dict

/-- Lookup: `map.get(key)`, `mapping[name]`; `none` stands for `undefined`. -/
def get {α : Type} : Dict α → String → Option α
  | [], _ => none
  | (k, v) :: rest, key => if k = key then some v else get rest key

/-- Update `map.set(key, v)`, `mapping[name] = v`: an existing key keeps its
position, a new key goes last. -/
def set {α : Type} : Dict α → String → α → Dict α
  | [], key, v => [(key, v)]
  | (k, x) :: rest, key, v =>
    if k = key then (k, v) :: rest else (k, x) :: set rest key v

/-- Removal `map.delete(key)`.  A `Map` holds a key at most once; on a list
that repeats the key every occurrence goes, so that the key is absent afterwards. -/
def delete {α : Type} : Dict α → String → Dict α
  | [], _ => []
  | (k, x) :: rest, key =>
    if k = key then delete rest key else (k, x) :: delete rest key

/-- Membership `map.has(key)`, `name in mapping`. -/
def has {α : Type} (d : Dict α) (key : String) : Bool :=
  (d.get key).isSome

end Dict

/-- A `Map` from a key to the array of plugins registered under it. -/
abbrev MapCollection := Dict (List Entry)

/-- The `mapping` object: its own properties, one `Map` per name.  The
properties a plain object inherits from `Object.prototype` are the list
`Plain.objectPrototypeNames`. -/
abbrev Store := Dict MapCollection

/-- The `options` object of the registry. -/
structure Options where
  context : JSVal
  timeout : JSVal
  error : JSVal

/-- The `options` object as a value (the receiver of `options.error(e)`). -/
def Options.toVal (o : Options) : JSVal :=
  .obj [("context", o.context), ("timeout", o.timeout), ("error", o.error)]

/-! ## The world outside the module -/

/-- How a promise settles. -/
inductive Settlement where
  | fulfilled (v : JSVal)
  | rejected (e : JSVal)

/-- What a handler returns: a computation that settles after some milliseconds,
or one that never does. -/
inductive Pending where
  | settles (after : Nat) (s : Settlement)
  | never

/-- How a call of a user function completes: it throws, or it returns. -/
inductive Completion where
  | throws (e : JSVal)
  | returns (p : Pending)

/-- A call of the registry API made from inside a user function.  A call of
`exec` counts for what it does to the store itself, the `creade` at its start;
the calls made by the functions it runs in turn are calls of their own, listed
after it. -/
inductive Op where
  | add (name key : String) (fn : JSFunction) (opts : Option Opts)
  | remove (name key : String) (fn : Option JSFunction)
  | exec (name key : String)

/-- Everything a call of a user function does that the registry can observe:
the API calls made while it runs (`add`, `remove` and `exec`, in order) and how
it completes. -/
structure Run where
  ops : List Op
  completion : Completion

/-- What the module does not define: the duration parser `ms`
(`require('millisecond')`), the timeout race `borked` (`require('borked')`) and
the behaviour `call ref receiver args` of the function object `ref`. -/
structure World where
  ms : JSVal → JSVal
  borked : Pending → JSVal → Settlement
  call : Nat → JSVal → List JSVal → Run

/-! ## `creade` -/

/-- Source `creade(name)` at a name that is an own property of `mapping` or no
property of it at all: the map stored under `name`, created (and stored) when
there is none.  Returns the store after the call and the map.  (`Plain.creade`
is `creade` with the names a plain object inherits.) -/
def creade (mapping : Store) (name : String) : Store × MapCollection :=
  match mapping.get name with
  | some map => (mapping, map)
  | none => (mapping.set name [], [])

/-! ## `add` -/

/-- The comparison function `sort(a, b)` handed to `Array.prototype.sort`:
`b.priority - a.priority`.  Only its sign is used, and the sign of a difference
of two integer valued numbers is that of the difference of the integers. -/
def sort (a b : Entry) : Int :=
  b.priority - a.priority

/-- The order a comparison function induces: `a` may stay in front of `b` when
the comparison is not positive. -/
def cmpLE {α : Type} (cmp : α → α → Int) (a b : α) : Prop :=
  cmp a b ≤ 0

instance {α : Type} (cmp : α → α → Int) : DecidableRel (cmpLE cmp) :=
  fun a b => inferInstanceAs (Decidable (cmp a b ≤ 0))

/-- The method `Array.prototype.sort(cmp)` of the language: a stable sort
(ECMAScript 2019), here an insertion sort which puts an element in front of the
first one it must precede and leaves equal elements in their order. -/
def arraySort {α : Type} (cmp : α → α → Int) (l : List α) : List α :=
  l.insertionSort (cmpLE cmp)

/-- The argument of `ms` in `add`:
`timeout || fn.timeout || options.timeout || '20 seconds'`. -/
def timeoutSource (timeout fnTimeout optionsTimeout : JSVal) : JSVal :=
  (((timeout.or fnTimeout).or optionsTimeout).or (.str "20 seconds"))

/-- Source `add(name, key, fn, opts = {})`. -/
def add (w : World) (options : Options) (mapping : Store)
    (name key : String) (fn : JSFunction) (opts? : Option Opts) : Store :=
  let opts := opts?.getD Opts.empty
  let (mapping, map) := creade mapping name
  let previous := (map.get key).getD []
  let priority := opts.priority.getD 100
  let runner : Runner :=
    ⟨fn, opts, w.ms (timeoutSource opts.timeout fn.timeout options.timeout)⟩
  mapping.set name (map.set key (arraySort sort (previous ++ [⟨priority, runner, fn⟩])))

/-! ## `remove` -/

/-- Source `remove(name, key, fn)`; `fn = none` is the call without a function. -/
def remove (mapping : Store) (name key : String) (fn : Option JSFunction) : Store :=
  let (mapping, map) := creade mapping name
  match map.get key with
  | none => mapping
  | some keys =>
    let remaining :=
      match fn with
      | some f => keys.filter (fun plugin => plugin.fn.ref != f.ref)
      | none => []
    if remaining.length ≠ 0 then mapping.set name (map.set key remaining)
    else mapping.set name (map.delete key)

/-! ## `exec` -/

/-- An API call made by a user function, carried out. -/
def Op.apply (w : World) (options : Options) (mapping : Store) : Op → Store
  | .add name key fn opts => Shrubbery.add w options mapping name key fn opts
  | .remove name key fn => Shrubbery.remove mapping name key fn
  | .exec name _ => (creade mapping name).1

/-- A list of API calls carried out in order. -/
def applyOps (w : World) (options : Options) (mapping : Store) (ops : List Op) : Store :=
  ops.foldl (Op.apply w options) mapping

/-- One turn of the loop of `exec`: the plugin, the receiver and the arguments
its function was applied to, and how the body of the `try` settled. -/
structure Step where
  entry : Entry
  receiver : JSVal
  args : List JSVal
  outcome : Settlement

/-- What a call of `exec` leaves behind: the store, the settlement of the
promise it returned, the turns of its loop in order, and the errors it passed
to `options.error`, in order. -/
structure ExecResult where
  store : Store
  outcome : Settlement
  steps : List Step
  reported : List JSVal

/-- The call `runner(result, ...args)`: `fn.apply(options.context,
args.concat(opts))` with `args = [result, ...args]`. -/
def runnerArgs (runner : Runner) (result : JSVal) (args : List JSVal) : List JSVal :=
  (result :: args) ++ [runner.opts.toVal]

/-- The body of the `try`: `await borked(runner(result, ...args), runner.timeout)`. -/
def attempt (w : World) (runner : Runner) (run : Run) : Settlement :=
  match run.completion with
  | .throws e => .rejected e
  | .returns p => w.borked p runner.timeout

/-- The `for` loop of `exec` over the array `keys`, from the current element on. -/
def execLoop (w : World) (options : Options) (args : List JSVal) :
    List Entry → Store → JSVal → ExecResult
  | [], mapping, result => ⟨mapping, .fulfilled result, [], []⟩
  | plugin :: rest, mapping, result =>
    let runner := plugin.runner
    let callArgs := runnerArgs runner result args
    let run := w.call runner.fn.ref options.context callArgs
    let mapping := applyOps w options mapping run.ops
    let outcome := attempt w runner run
    let step : Step := ⟨plugin, options.context, callArgs, outcome⟩
    match outcome with
    | .fulfilled v =>
      let r := execLoop w options args rest mapping (v.or result)
      ⟨r.store, r.outcome, step :: r.steps, r.reported⟩
    | .rejected e =>
      match options.error with
      | .func cb =>
        let cbRun := w.call cb options.toVal [e]
        let mapping := applyOps w options mapping cbRun.ops
        match cbRun.completion with
        | .throws e2 => ⟨mapping, .rejected e2, [step], [e]⟩
        | .returns _ =>
          let r := execLoop w options args rest mapping result
          ⟨r.store, r.outcome, step :: r.steps, e :: r.reported⟩
      | _ => ⟨mapping, .rejected e, [step], []⟩

/-- Source `exec(name, key, data = {}, ...args)`. -/
def exec (w : World) (options : Options) (mapping : Store)
    (name key : String) (data : JSVal) (args : List JSVal) : ExecResult :=
  let result := data.orDefault (.obj [])
  let (mapping, map) := creade mapping name
  match map.get key with
  | none => ⟨mapping, .fulfilled result, [], []⟩
  | some keys => execLoop w options args keys mapping result

/-! ## Vocabulary of the statements -/

/-- The array stored under `(name, key)`: `mapping[name].get(key)` when both the
map and the key exist. -/
def stored (mapping : Store) (name key : String) : Option (List Entry) :=
  (mapping.get name).bind (fun map => map.get key)

/-- The element `add(name, key, fn, opts)` appends to the array of its key. -/
def entryOf (w : World) (options : Options) (fn : JSFunction) (opts? : Option Opts) : Entry :=
  let opts := opts?.getD Opts.empty
  ⟨opts.priority.getD 100,
   ⟨fn, opts, w.ms (timeoutSource opts.timeout fn.timeout options.timeout)⟩, fn⟩

/-- One registration `add(name, key, fn, opts)` under a fixed `(name, key)`. -/
abbrev Registration := JSFunction × Option Opts

/-- The store after the registrations `regs`, in order, under `(name, key)`. -/
def addAll (w : World) (options : Options) (mapping : Store) (name key : String)
    (regs : List Registration) : Store :=
  regs.foldl (fun m r => add w options m name key r.1 r.2) mapping

/-- The list is non-increasing in priority. -/
def Descending (l : List Entry) : Prop :=
  l.Pairwise (fun a b => a.priority ≥ b.priority)

/-- The entries of a list that have priority `p`, in the order of the list. -/
def withPriority (p : Int) (l : List Entry) : List Entry :=
  l.filter (fun e => e.priority == p)

namespace Settlement

/-- The promise was fulfilled. -/
def isFulfilled : Settlement → Bool
  | fulfilled _ => true
  | rejected _ => false

/-- The value of a fulfilled promise. -/
def value? : Settlement → Option JSVal
  | fulfilled v => some v
  | rejected _ => none

/-- The reason of a rejected promise. -/
def error? : Settlement → Option JSVal
  | fulfilled _ => none
  | rejected e => some e

end Settlement

/-- The fold of the chain over settled values: a non-falsy value replaces the
running result, a falsy one leaves it. -/
def replaceIfTruthy (result v : JSVal) : JSVal :=
  if v.truthy then v else result

/-- The running result after a turn of the loop: a fulfilled turn folds its
value in, a failed turn leaves the running result as it was. -/
def afterStep (result : JSVal) (s : Step) : JSVal :=
  match s.outcome with
  | .fulfilled v => replaceIfTruthy result v
  | .rejected _ => result

/-- The running result after the turns `steps`, starting from `data`. -/
def running (data : JSVal) (steps : List Step) : JSVal :=
  steps.foldl afterStep data

/-- The last non-falsy value among `vals`, or `data` when there is none. -/
def lastTruthy (data : JSVal) (vals : List JSVal) : JSVal :=
  ((vals.filter JSVal.truthy).getLast?).getD data

/-- The turn of the loop for `plugin` when the running result is `result`. -/
def turn (w : World) (options : Options) (args : List JSVal) (plugin : Entry)
    (result : JSVal) : Step :=
  ⟨plugin, options.context, runnerArgs plugin.runner result args,
    attempt w plugin.runner
      (w.call plugin.runner.fn.ref options.context (runnerArgs plugin.runner result args))⟩

/-- How the call a turn records completes: `fn.apply(receiver, args)`. -/
def Step.completion (w : World) (s : Step) : Completion :=
  (w.call s.entry.runner.fn.ref s.receiver s.args).completion

/-- The handler of the turn fails with `e`: its call throws `e`, or it returns a
computation and the race of that computation against `runner.timeout` is
rejected with `e` (the computation was rejected, or the deadline came first). -/
def Step.FailsWith (w : World) (s : Step) (e : JSVal) : Prop :=
  s.completion w = .throws e ∨
    ∃ p, s.completion w = .returns p ∧ w.borked p s.entry.runner.timeout = .rejected e

/-- The handler of the turn settles with `v`: its call returns a computation and
the race of that computation against `runner.timeout` is fulfilled with `v`. -/
def Step.SettlesWith (w : World) (s : Step) (v : JSVal) : Prop :=
  ∃ p, s.completion w = .returns p ∧ w.borked p s.entry.runner.timeout = .fulfilled v

/-- Every stored array is non-increasing in priority. -/
def AllDescending (mapping : Store) : Prop :=
  ∀ name key l, stored mapping name key = some l → Descending l

/-- No key of any map is present with an empty array. -/
def NoEmptyList (mapping : Store) : Prop :=
  ∀ p ∈ mapping, ∀ q ∈ p.2, q.2 ≠ []

/-- The value is `null` or `undefined`. -/
def JSVal.isNullish : JSVal → Bool
  | .undefined => true
  | .null => true
  | _ => false

/-- The resolution of the timeout as the specification words it: the first
of the explicit option, the `timeout` property of the handler and the registry
wide default that is not null, and the fallback `'20 seconds'` when all three
are absent. -/
def firstNonNull (timeout fnTimeout optionsTimeout : JSVal) : JSVal :=
  if !timeout.isNullish then timeout
  else if !fnTimeout.isNullish then fnTimeout
  else if !optionsTimeout.isNullish then optionsTimeout
  else .str "20 seconds"

/-- A call of the public API. -/
inductive Call where
  | add (name key : String) (fn : JSFunction) (opts : Option Opts)
  | remove (name key : String) (fn : Option JSFunction)
  | exec (name key : String) (data : JSVal) (args : List JSVal)

/-- The store after a call of the public API. -/
def Call.apply (w : World) (options : Options) (mapping : Store) : Call → Store
  | .add name key fn opts => Shrubbery.add w options mapping name key fn opts
  | .remove name key fn => Shrubbery.remove mapping name key fn
  | .exec name key data args => (Shrubbery.exec w options mapping name key data args).store

/-- The store after a sequence of calls of the public API. -/
def applyCalls (w : World) (options : Options) (mapping : Store) (calls : List Call) : Store :=
  calls.foldl (Call.apply w options) mapping

/-! ## A concrete world for the examples -/

/-- A duration parser for the examples: a number is a number of milliseconds,
and the strings used by the module and its tests are parsed. -/
def sampleMs : JSVal → JSVal
  | .num n => .num n
  | .str s =>
    if s = "20 seconds" then .num 20000
    else if s = "5 seconds" then .num 5000
    else if s = "2 seconds" then .num 2000
    else .num 0
  | _ => .num 0

/-- The error a lost race is rejected with, in the examples. -/
def sampleTimeoutError : JSVal := .str "timeout"

/-- A timeout race for the examples: the computation wins when it settles
before the deadline. -/
def sampleBorked (p : Pending) (timeout : JSVal) : Settlement :=
  match p, timeout with
  | .settles after s, .num ms => if (after : Int) < ms then s else .rejected sampleTimeoutError
  | .settles _ s, _ => s
  | .never, _ => .rejected sampleTimeoutError

/-- The error thrown by the failing plugin of the examples. -/
def sampleError : JSVal := .str "I should not be causing any harm"

/-- The functions of the examples, by reference:
`1` returns its first argument, `2` returns `undefined`, `3` throws,
`4` returns `{ send: 'help' }`, `5` never settles, `6` returns `{}`,
`7` returns `0`, `8` is an error callback that returns `undefined`,
`9` removes plugin `2` from `('map', 'example')` and returns `undefined`,
`10` throws before it returns, `11` settles with `'late'` after 100 ms,
`12` calls `exec('other', 'x')` and returns `undefined`. -/
def sampleCall (ref : Nat) (_receiver : JSVal) (args : List JSVal) : Run :=
  match ref with
  | 1 => ⟨[], .returns (.settles 0 (.fulfilled (args.headD .undefined)))⟩
  | 3 => ⟨[], .returns (.settles 0 (.rejected sampleError))⟩
  | 4 => ⟨[], .returns (.settles 0 (.fulfilled (.obj [("send", .str "help")])))⟩
  | 5 => ⟨[], .returns .never⟩
  | 6 => ⟨[], .returns (.settles 0 (.fulfilled (.obj [])))⟩
  | 7 => ⟨[], .returns (.settles 0 (.fulfilled (.num 0)))⟩
  | 9 => ⟨[.remove "map" "example" (some ⟨2, .undefined⟩)],
          .returns (.settles 0 (.fulfilled .undefined))⟩
  | 10 => ⟨[], .throws sampleError⟩
  | 11 => ⟨[], .returns (.settles 100 (.fulfilled (.str "late")))⟩
  | 12 => ⟨[.exec "other" "x"], .returns (.settles 0 (.fulfilled .undefined))⟩
  | _ => ⟨[], .returns (.settles 0 (.fulfilled .undefined))⟩

/-- The world of the examples. -/
def sampleWorld : World := ⟨sampleMs, sampleBorked, sampleCall⟩

/-- A registry created as `shrubbery()`: no context, no timeout, no callback. -/
def plainOptions : Options := ⟨.undefined, .undefined, .undefined⟩

/-- A registry created with the error callback `8`. -/
def isolatingOptions : Options := ⟨.undefined, .undefined, .func 8⟩

/-- A plugin function without a `timeout` property. -/
def plainFn (ref : Nat) : JSFunction := ⟨ref, .undefined⟩

/-- The options `{ priority: p }`. -/
def withPrio (p : Int) : Option Opts := some ⟨some p, .undefined, []⟩

/-- The store of the examples: the three registrations of the test "executed
function can change the result", under `('map', 'example')`. -/
def sampleStore : Store :=
  addAll sampleWorld plainOptions [] "map" "example"
    [(plainFn 2, withPrio 95), (plainFn 1, withPrio 195), (plainFn 4, none)]

/-- The array `sampleStore` holds under `('map', 'example')`. -/
def sampleChain : List Entry :=
  [entryOf sampleWorld plainOptions (plainFn 1) (withPrio 195),
   entryOf sampleWorld plainOptions (plainFn 4) none,
   entryOf sampleWorld plainOptions (plainFn 2) (withPrio 95)]

/-- The data of the examples, `{ foo: 'bar' }`. -/
def sampleData : JSVal := .obj [("foo", .str "bar")]

/-- The options `{ timeout: ms }`. -/
def withTimeout (ms : Int) : Option Opts := some ⟨none, .num ms, []⟩

/-- A chain whose second plugin never settles and has a timeout of 50 ms. -/
def hangingRegs : List Registration :=
  [(plainFn 2, withPrio 200), (plainFn 5, withTimeout 50), (plainFn 4, withPrio 50)]

/-- A chain whose second plugin settles after 100 ms and has a timeout of 50 ms. -/
def lateRegs : List Registration :=
  [(plainFn 2, withPrio 200), (plainFn 11, withTimeout 50), (plainFn 4, withPrio 50)]

/-- A chain whose second plugin throws before it returns. -/
def throwingFirstRegs : List Registration :=
  [(plainFn 2, withPrio 200), (plainFn 10, none), (plainFn 4, withPrio 50)]

/-- A chain with a plugin that throws before it returns, a plugin whose promise
is rejected and a plugin that loses the race against its timeout. -/
def failingRegs : List Registration :=
  [(plainFn 6, withPrio 200), (plainFn 10, withPrio 150), (plainFn 3, withPrio 120),
   (plainFn 11, withTimeout 50), (plainFn 7, withPrio 50)]

/-- A chain whose second plugin throws. -/
def throwingRegs : List Registration :=
  [(plainFn 6, withPrio 200), (plainFn 3, none), (plainFn 7, withPrio 50)]

/-- Three registrations of one priority: two by default, one explicit. -/
def tiedRegs : List Registration :=
  [(plainFn 1, none), (plainFn 2, none), (plainFn 4, withPrio 100)]

/-- The calls of the test "removes the key from the map if there are no more fns". -/
def emptyingCalls : List Call :=
  [.add "map" "example" (plainFn 1) none,
   .add "map" "example" (plainFn 2) none,
   .remove "map" "example" (some (plainFn 1)),
   .remove "map" "example" (some (plainFn 2))]

/-- The plugin options `{ foo: 'bar', priority: 12 }` of the test "receives the
additional args". -/
def fooOpts : Opts := ⟨some 12, .undefined, [("foo", .str "bar")]⟩

/-- A world whose functions make no call of the registry API: the functions of
the examples with their API calls taken away. -/
def quietWorld : World :=
  ⟨sampleMs, sampleBorked, fun ref receiver args => ⟨[], (sampleCall ref receiver args).completion⟩⟩

/-- The store of the test "removes the added function": `foo` under `example`
and `different`, `bar` under `example`. -/
def twoKeyStore : Store :=
  applyOps sampleWorld plainOptions []
    [.add "map" "example" (plainFn 1) none,
     .add "map" "different" (plainFn 1) none,
     .add "map" "example" (plainFn 2) none]

/-- The ordered insert the specification allows in place of the full re-sort:
the new entry goes immediately after the last entry whose priority is greater
than or equal to its own, and first when there is no such entry. -/
def insertAfterLastGE (e : Entry) (l : List Entry) : List Entry :=
  l.rdropWhile (fun a => decide (a.priority < e.priority)) ++
    e :: l.rtakeWhile (fun a => decide (a.priority < e.priority))

/-! ## Arrays as objects

The definitions above treat the array stored under a key as a value.  In the
module it is an object: `map.get(key)` returns a reference, and the loop of
`exec` reads `keys.length` and `keys[i]` from that object on every turn.  The
definitions of this section follow the source at that level: arrays live in a
memory, a `Map` holds their addresses, `concat`, `filter` and an array literal
allocate a new array, `sort` writes into the array it is called on. -/

namespace Heap

/-- The arrays allocated so far, by address, and the `mapping` object, whose
`Map`s hold addresses of arrays. -/
structure Mem where
  arrays : List (List Entry)
  mapping : Dict (Dict Nat)

namespace Mem

/-- The contents of the array at `addr`. -/
def read (m : Mem) (addr : Nat) : List Entry :=
  m.arrays.getD addr []

/-- A new array with contents `a`: the memory with it, and its address. -/
def alloc (m : Mem) (a : List Entry) : Mem × Nat :=
  (⟨m.arrays ++ [a], m.mapping⟩, m.arrays.length)

/-- The array at `addr` overwritten in place with `a`. -/
def write (m : Mem) (addr : Nat) (a : List Entry) : Mem :=
  ⟨m.arrays.set addr a, m.mapping⟩

end Mem

/-- Source `creade(name)`, on the memory, at a name that is an own property of
`mapping` or no property of it at all (as `creade` above). -/
def creade (m : Mem) (name : String) : Mem × Dict Nat :=
  match m.mapping.get name with
  | some map => (m, map)
  | none => (⟨m.arrays, m.mapping.set name []⟩, [])

/-- Source `add(name, key, fn, opts = {})`, on the memory: `map.get(key) || []`
is the stored array or a new empty one, `previous.concat(...)` is a new array,
`.sort(...)` sorts that new array in place, and `map.set` stores its address. -/
def add (w : World) (options : Options) (m : Mem)
    (name key : String) (fn : JSFunction) (opts? : Option Opts) : Mem :=
  let opts := opts?.getD Opts.empty
  let (m, map) := creade m name
  let (m, previous) :=
    match map.get key with
    | some addr => (m, addr)
    | none => m.alloc []
  let priority := opts.priority.getD 100
  let runner : Runner :=
    ⟨fn, opts, w.ms (timeoutSource opts.timeout fn.timeout options.timeout)⟩
  let (m, fresh) := m.alloc (m.read previous ++ [⟨priority, runner, fn⟩])
  let m := m.write fresh (arraySort sort (m.read fresh))
  ⟨m.arrays, m.mapping.set name (map.set key fresh)⟩

/-- Source `remove(name, key, fn)`, on the memory: `keys.filter(...)` and the
literal `[]` are new arrays. -/
def remove (m : Mem) (name key : String) (fn : Option JSFunction) : Mem :=
  let (m, map) := creade m name
  match map.get key with
  | none => m
  | some keys =>
    let (m, remaining) :=
      match fn with
      | some f => m.alloc ((m.read keys).filter (fun plugin => plugin.fn.ref != f.ref))
      | none => m.alloc []
    if (m.read remaining).length ≠ 0 then
      ⟨m.arrays, m.mapping.set name (map.set key remaining)⟩
    else ⟨m.arrays, m.mapping.set name (map.delete key)⟩

/-- An API call made by a user function, carried out on the memory. -/
def applyOp (w : World) (options : Options) (m : Mem) : Op → Mem
  | .add name key fn opts => add w options m name key fn opts
  | .remove name key fn => remove m name key fn
  | .exec name _ => (creade m name).1

/-- A list of API calls carried out in order on the memory. -/
def applyOps (w : World) (options : Options) (m : Mem) (ops : List Op) : Mem :=
  ops.foldl (applyOp w options) m

/-- What a call of `exec` leaves behind, on the memory. -/
structure ExecResult where
  mem : Mem
  outcome : Settlement
  steps : List Step
  reported : List JSVal

/-- The `for` loop of `exec` from index `i` on, over the array object at
address `keys`: every turn reads `keys.length` and `keys[i]` from the memory as
it is then.  The first argument bounds the number of turns; `none` means the
bound was reached. -/
def execLoop (w : World) (options : Options) (args : List JSVal) (keys : Nat) :
    Nat → Nat → Mem → JSVal → Option ExecResult
  | 0, _, _, _ => none
  | fuel + 1, i, m, result =>
    match (m.read keys)[i]? with
    | none => some ⟨m, .fulfilled result, [], []⟩
    | some plugin =>
      let runner := plugin.runner
      let callArgs := runnerArgs runner result args
      let run := w.call runner.fn.ref options.context callArgs
      let m := applyOps w options m run.ops
      let outcome := attempt w runner run
      let step : Step := ⟨plugin, options.context, callArgs, outcome⟩
      match outcome with
      | .fulfilled v =>
        match execLoop w options args keys fuel (i + 1) m (v.or result) with
        | none => none
        | some r => some ⟨r.mem, r.outcome, step :: r.steps, r.reported⟩
      | .rejected e =>
        match options.error with
        | .func cb =>
          let cbRun := w.call cb options.toVal [e]
          let m := applyOps w options m cbRun.ops
          match cbRun.completion with
          | .throws e2 => some ⟨m, .rejected e2, [step], [e]⟩
          | .returns _ =>
            match execLoop w options args keys fuel (i + 1) m result with
            | none => none
            | some r => some ⟨r.mem, r.outcome, step :: r.steps, e :: r.reported⟩
        | _ => some ⟨m, .rejected e, [step], []⟩

/-- Source `exec(name, key, data = {}, ...args)`, on the memory, with a bound on
the number of turns of its loop. -/
def exec (w : World) (options : Options) (m : Mem)
    (name key : String) (data : JSVal) (args : List JSVal) (fuel : Nat) : Option ExecResult :=
  let result := data.orDefault (.obj [])
  let (m, map) := creade m name
  match map.get key with
  | none => some ⟨m, .fulfilled result, [], []⟩
  | some keys => execLoop w options args keys fuel 0 m result

/-- Every address held by a `Map` of the memory is the address of an array. -/
def WellFormed (m : Mem) : Prop :=
  ∀ p ∈ m.mapping, ∀ q ∈ p.2, q.2 < m.arrays.length

/-- The memory `m2` has all the arrays of `m1`, with their contents, and
possibly more. -/
def Extends (m1 m2 : Mem) : Prop :=
  ∃ more, m2.arrays = m1.arrays ++ more

/-- A `Map` of addresses as a `Map` of arrays: every address replaced by the
contents of its array. -/
def deref (m : Mem) (map : Dict Nat) : MapCollection :=
  map.map (fun q => (q.1, m.read q.2))

/-- The store of values a memory stands for. -/
def toStore (m : Mem) : Store :=
  m.mapping.map (fun p => (p.1, deref m p.2))

/-- The address stored under `(name, key)`. -/
def address (m : Mem) (name key : String) : Option Nat :=
  (m.mapping.get name).bind (fun map => map.get key)

/-- The memory of the examples: plugin `9` (which removes plugin `2` from the
key while it runs) registered in front of plugin `2`. -/
def sampleMem : Mem :=
  applyOps sampleWorld plainOptions ⟨[], []⟩
    [.add "map" "example" (plainFn 9) (withPrio 200),
     .add "map" "example" (plainFn 2) none]

end Heap

/-! ## The default `mapping`: a plain object

`shrubbery()` takes the object literal `{}` as `mapping`.  A plain object
inherits the properties of `Object.prototype`, and `creade` tests
`name in mapping`, which is true of an inherited name as well as of an own one.
The definition `creade` above is `creade` at the names that are own properties
of `mapping` or no property of it at all; the definitions of this section are
the module over a plain object, inherited names included. -/

namespace Plain

/-- The names of the properties of `Object.prototype`, which every plain object
inherits. -/
def objectPrototypeNames : List String :=
  ["constructor", "__defineGetter__", "__defineSetter__", "hasOwnProperty",
   "__lookupGetter__", "__lookupSetter__", "isPrototypeOf", "propertyIsEnumerable",
   "toString", "valueOf", "__proto__", "toLocaleString"]

/-- The test `name in mapping` on a plain object: `name` is an own property or
an inherited one. -/
def hasProperty (mapping : Store) (name : String) : Bool :=
  mapping.has name || objectPrototypeNames.contains name

/-- The `TypeError` of the call `map.get(key)` on a value without such a method. -/
def typeError : JSVal :=
  .obj [("name", .str "TypeError"), ("message", .str "map.get is not a function")]

/-- Source `creade(name)` on a plain object.  `mapping[name]` is the own `Map`
of the name, and for a name that is only inherited the value `Object.prototype`
has for it, which is not a `Map` and is returned as `none`. -/
def creade (mapping : Store) (name : String) : Store × Option MapCollection :=
  if hasProperty mapping name then (mapping, mapping.get name)
  else (mapping.set name [], some [])

/-- Source `add(name, key, fn, opts = {})` on a plain object: on a value that is
not a `Map` the call `map.get(key)` throws. -/
def add (w : World) (options : Options) (mapping : Store)
    (name key : String) (fn : JSFunction) (opts? : Option Opts) : Except JSVal Store :=
  let opts := opts?.getD Opts.empty
  match creade mapping name with
  | (_, none) => .error typeError
  | (mapping, some map) =>
    let previous := (map.get key).getD []
    let priority := opts.priority.getD 100
    let runner : Runner :=
      ⟨fn, opts, w.ms (timeoutSource opts.timeout fn.timeout options.timeout)⟩
    .ok (mapping.set name (map.set key (arraySort sort (previous ++ [⟨priority, runner, fn⟩]))))

/-- Source `remove(name, key, fn)` on a plain object. -/
def remove (mapping : Store) (name key : String) (fn : Option JSFunction) :
    Except JSVal Store :=
  match creade mapping name with
  | (_, none) => .error typeError
  | (mapping, some map) =>
    match map.get key with
    | none => .ok mapping
    | some keys =>
      let remaining :=
        match fn with
        | some f => keys.filter (fun plugin => plugin.fn.ref != f.ref)
        | none => []
      if remaining.length ≠ 0 then .ok (mapping.set name (map.set key remaining))
      else .ok (mapping.set name (map.delete key))

/-- The store after a call that returned the store `s` or threw: a call that
throws has stored nothing. -/
def after (mapping : Store) : Except JSVal Store → Store
  | .ok s => s
  | .error _ => mapping

/-- An API call made by a user function, carried out on a plain object. -/
def applyOp (w : World) (options : Options) (mapping : Store) : Op → Store
  | .add name key fn opts => after mapping (add w options mapping name key fn opts)
  | .remove name key fn => after mapping (remove mapping name key fn)
  | .exec name _ => (creade mapping name).1

/-- A list of API calls carried out in order on a plain object. -/
def applyOps (w : World) (options : Options) (mapping : Store) (ops : List Op) : Store :=
  ops.foldl (applyOp w options) mapping

/-- The `for` loop of `exec` over the array `keys`, on a plain object. -/
def execLoop (w : World) (options : Options) (args : List JSVal) :
    List Entry → Store → JSVal → ExecResult
  | [], mapping, result => ⟨mapping, .fulfilled result, [], []⟩
  | plugin :: rest, mapping, result =>
    let runner := plugin.runner
    let callArgs := runnerArgs runner result args
    let run := w.call runner.fn.ref options.context callArgs
    let mapping := applyOps w options mapping run.ops
    let outcome := attempt w runner run
    let step : Step := ⟨plugin, options.context, callArgs, outcome⟩
    match outcome with
    | .fulfilled v =>
      let r := execLoop w options args rest mapping (v.or result)
      ⟨r.store, r.outcome, step :: r.steps, r.reported⟩
    | .rejected e =>
      match options.error with
      | .func cb =>
        let cbRun := w.call cb options.toVal [e]
        let mapping := applyOps w options mapping cbRun.ops
        match cbRun.completion with
        | .throws e2 => ⟨mapping, .rejected e2, [step], [e]⟩
        | .returns _ =>
          let r := execLoop w options args rest mapping result
          ⟨r.store, r.outcome, step :: r.steps, e :: r.reported⟩
      | _ => ⟨mapping, .rejected e, [step], []⟩

/-- Source `exec(name, key, data = {}, ...args)` on a plain object: the function
is `async`, so the `TypeError` of `map.get(key)` rejects its promise. -/
def exec (w : World) (options : Options) (mapping : Store)
    (name key : String) (data : JSVal) (args : List JSVal) : ExecResult :=
  let result := data.orDefault (.obj [])
  match creade mapping name with
  | (mapping, none) => ⟨mapping, .rejected typeError, [], []⟩
  | (mapping, some map) =>
    match map.get key with
    | none => ⟨mapping, .fulfilled result, [], []⟩
    | some keys => execLoop w options args keys mapping result

/-- The name is an own property of `mapping`, or no property of it at all: the
names at which `name in mapping` does not rest on inheritance. -/
def Ordinary (mapping : Store) (name : String) : Prop :=
  mapping.has name = true ∨ objectPrototypeNames.contains name = false

end Plain

/-! ## Dictionaries -/

namespace Dict

theorem get_set_self {α : Type} (d : Dict α) (key : String) (v : α) :
    (d.set key v).get key = some v := by
  induction d with
  | nil => simp [set, get]
  | cons p rest ih =>
    obtain ⟨k, x⟩ := p
    by_cases h : k = key
    · simp [set, get, h]
    · simp [set, get, h, ih]

theorem get_set_other {α : Type} (d : Dict α) {key key2 : String} (h : key ≠ key2) (v : α) :
    (d.set key v).get key2 = d.get key2 := by
  induction d with
  | nil => simp [set, get, h]
  | cons p rest ih =>
    obtain ⟨k, x⟩ := p
    by_cases hk : k = key
    · subst hk
      simp [set, get, h]
    · by_cases hk2 : k = key2
      · subst hk2
        simp [set, get, hk]
      · simp [set, get, hk, hk2, ih]

theorem get_delete_self {α : Type} (d : Dict α) (key : String) :
    (d.delete key).get key = none := by
  induction d with
  | nil => simp [delete, get]
  | cons p rest ih =>
    obtain ⟨k, x⟩ := p
    by_cases h : k = key
    · simp [delete, h, ih]
    · simp [delete, get, h, ih]

theorem get_delete_other {α : Type} (d : Dict α) {key key2 : String} (h : key ≠ key2) :
    (d.delete key).get key2 = d.get key2 := by
  induction d with
  | nil => simp [delete, get]
  | cons p rest ih =>
    obtain ⟨k, x⟩ := p
    by_cases hk : k = key
    · subst hk
      simp [delete, get, h, ih]
    · by_cases hk2 : k = key2
      · subst hk2
        simp [delete, get, hk]
      · simp [delete, get, hk, hk2, ih]

end Dict

/-! ## What `creade`, `add` and `remove` store -/

theorem creade_snd (mapping : Store) (name : String) :
    (creade mapping name).2 = (mapping.get name).getD [] := by
  unfold creade
  cases h : mapping.get name <;> simp

theorem creade_fst_get (mapping : Store) (name : String) :
    (creade mapping name).1.get name = some ((mapping.get name).getD []) := by
  unfold creade
  cases h : mapping.get name with
  | none => simp [Dict.get_set_self]
  | some m => simp [h]

theorem creade_fst_get_other (mapping : Store) {name name2 : String} (h : name ≠ name2) :
    (creade mapping name).1.get name2 = mapping.get name2 := by
  unfold creade
  cases hm : mapping.get name with
  | none => simp [Dict.get_set_other _ h]
  | some m => simp

theorem stored_creade (mapping : Store) (name name2 key : String) :
    stored (creade mapping name).1 name2 key = stored mapping name2 key := by
  unfold stored
  by_cases h : name = name2
  · subst h
    rw [creade_fst_get]
    cases hm : mapping.get name <;> simp [Dict.get]
  · rw [creade_fst_get_other _ h]

theorem creade_snd_get (mapping : Store) (name key : String) :
    (creade mapping name).2.get key = stored mapping name key := by
  rw [creade_snd]
  unfold stored
  cases hm : mapping.get name <;> simp [Dict.get]

theorem add_eq (w : World) (options : Options) (mapping : Store)
    (name key : String) (fn : JSFunction) (opts? : Option Opts) :
    add w options mapping name key fn opts? =
      (creade mapping name).1.set name
        ((creade mapping name).2.set key
          (arraySort sort ((stored mapping name key).getD [] ++ [entryOf w options fn opts?]))) := by
  rw [← creade_snd_get]
  rfl

theorem stored_add_self (w : World) (options : Options) (mapping : Store)
    (name key : String) (fn : JSFunction) (opts? : Option Opts) :
    stored (add w options mapping name key fn opts?) name key =
      some (arraySort sort ((stored mapping name key).getD [] ++ [entryOf w options fn opts?])) := by
  rw [add_eq]
  simp [stored, Dict.get_set_self]

theorem stored_add_other (w : World) (options : Options) (mapping : Store)
    (name key : String) (fn : JSFunction) (opts? : Option Opts) (name2 key2 : String)
    (h : ¬ (name2 = name ∧ key2 = key)) :
    stored (add w options mapping name key fn opts?) name2 key2 = stored mapping name2 key2 := by
  rw [add_eq]
  by_cases hn : name = name2
  · subst hn
    have hk : key ≠ key2 := fun e => h ⟨rfl, e.symm⟩
    simp only [stored, Dict.get_set_self, Option.some_bind, Dict.get_set_other _ hk]
    exact creade_snd_get mapping name key2
  · have := stored_creade mapping name name2 key2
    simp only [stored] at this ⊢
    rw [Dict.get_set_other _ hn]
    exact this

/-- The array `remove` leaves under its key, given the array it found. -/
theorem remove_eq (mapping : Store) (name key : String) (fn : Option JSFunction) :
    remove mapping name key fn =
      match stored mapping name key with
      | none => (creade mapping name).1
      | some keys =>
        let remaining :=
          match fn with
          | some f => keys.filter (fun plugin => plugin.fn.ref != f.ref)
          | none => []
        if remaining.length ≠ 0 then
          (creade mapping name).1.set name ((creade mapping name).2.set key remaining)
        else (creade mapping name).1.set name ((creade mapping name).2.delete key) := by
  rw [← creade_snd_get]
  rfl

theorem stored_remove_other (mapping : Store) (name key : String) (fn : Option JSFunction)
    (name2 key2 : String) (h : ¬ (name2 = name ∧ key2 = key)) :
    stored (remove mapping name key fn) name2 key2 = stored mapping name2 key2 := by
  rw [remove_eq]
  cases hs : stored mapping name key with
  | none => exact stored_creade mapping name name2 key2
  | some keys =>
    by_cases hn : name = name2
    · subst hn
      have hk : key ≠ key2 := fun e => h ⟨rfl, e.symm⟩
      simp only []
      split <;>
      · simp only [stored, Dict.get_set_self, Option.some_bind, Dict.get_set_other _ hk,
          Dict.get_delete_other _ hk]
        exact creade_snd_get mapping name key2
    · have := stored_creade mapping name name2 key2
      simp only [stored] at this ⊢
      split <;>
      · rw [Dict.get_set_other _ hn]
        exact this

theorem stored_remove_self (mapping : Store) (name key : String) (fn : Option JSFunction) :
    stored (remove mapping name key fn) name key =
      match stored mapping name key with
      | none => none
      | some keys =>
        match fn with
        | some f =>
          if (keys.filter (fun plugin => plugin.fn.ref != f.ref)).length ≠ 0 then
            some (keys.filter (fun plugin => plugin.fn.ref != f.ref))
          else none
        | none => none := by
  rw [remove_eq]
  cases hs : stored mapping name key with
  | none =>
    simp only []
    rw [stored_creade]
    exact hs
  | some keys =>
    cases fn with
    | none => simp [stored, Dict.get_set_self, Dict.get_delete_self]
    | some f =>
      by_cases hr : (keys.filter (fun plugin => plugin.fn.ref != f.ref)).length ≠ 0
      · simp only []
        rw [if_pos hr, if_pos hr]
        simp only [stored, Dict.get_set_self, Option.some_bind]
      · simp only []
        rw [if_neg hr, if_neg hr]
        simp only [stored, Dict.get_set_self, Option.some_bind, Dict.get_delete_self]

/-! ## The sort of `add` -/

theorem cmpLE_sort_iff (a b : Entry) : cmpLE sort a b ↔ a.priority ≥ b.priority := by
  unfold cmpLE sort
  omega

theorem cmpLE_sort_total : IsTotal Entry (cmpLE sort) :=
  ⟨fun a b => by
    simp only [cmpLE_sort_iff]
    omega⟩

theorem cmpLE_sort_trans : IsTrans Entry (cmpLE sort) :=
  ⟨fun a b c => by
    simp only [cmpLE_sort_iff]
    omega⟩

theorem descending_arraySort (l : List Entry) : Descending (arraySort sort l) := by
  haveI := cmpLE_sort_total
  haveI := cmpLE_sort_trans
  have h := List.sorted_insertionSort (cmpLE sort) l
  exact List.Pairwise.imp (fun {a b} hab => (cmpLE_sort_iff a b).1 hab) h

theorem perm_arraySort (l : List Entry) : (arraySort sort l).Perm l :=
  List.perm_insertionSort (cmpLE sort) l

theorem withPriority_orderedInsert (p : Int) (a : Entry) (s : List Entry) :
    withPriority p (List.orderedInsert (cmpLE sort) a s) = withPriority p (a :: s) := by
  induction s with
  | nil => rfl
  | cons b s ih =>
    by_cases hab : cmpLE sort a b
    · simp [List.orderedInsert, hab]
    · have hlt : a.priority < b.priority := by
        rw [cmpLE_sort_iff] at hab
        omega
      simp only [List.orderedInsert, hab, if_false]
      unfold withPriority at ih ⊢
      rw [List.filter_cons, ih]
      by_cases ha : a.priority = p
      · have hb : ¬ b.priority = p := by omega
        simp [List.filter_cons, ha, hb]
      · simp [List.filter_cons, ha]

theorem withPriority_arraySort (p : Int) (l : List Entry) :
    withPriority p (arraySort sort l) = withPriority p l := by
  induction l with
  | nil => rfl
  | cons a l ih =>
    unfold arraySort at ih ⊢
    rw [List.insertionSort, withPriority_orderedInsert]
    unfold withPriority at ih ⊢
    rw [List.filter_cons, List.filter_cons, ih]

theorem withPriority_append (p : Int) (l₁ l₂ : List Entry) :
    withPriority p (l₁ ++ l₂) = withPriority p l₁ ++ withPriority p l₂ := by
  unfold withPriority
  exact List.filter_append l₁ l₂

/-- The array under `(name, key)` after a run of registrations: a permutation of
what was there followed by the new entries, with every priority class in that
order, and non-increasing as soon as the array it started from was. -/
theorem stored_addAll (w : World) (options : Options) (name key : String)
    (regs : List Registration) (mapping : Store) :
    ((stored (addAll w options mapping name key regs) name key).getD []).Perm
        ((stored mapping name key).getD [] ++ regs.map (fun r => entryOf w options r.1 r.2)) ∧
      (∀ p, withPriority p ((stored (addAll w options mapping name key regs) name key).getD []) =
        withPriority p
          ((stored mapping name key).getD [] ++ regs.map (fun r => entryOf w options r.1 r.2))) ∧
      (Descending ((stored mapping name key).getD []) →
        Descending ((stored (addAll w options mapping name key regs) name key).getD [])) := by
  induction regs generalizing mapping with
  | nil => simp [addAll]
  | cons r regs ih =>
    obtain ⟨hperm, hstable, hdesc⟩ := ih (add w options mapping name key r.1 r.2)
    rw [stored_add_self] at hperm hstable hdesc
    simp only [Option.getD_some] at hperm hstable hdesc
    have hstep : addAll w options mapping name key (r :: regs) =
        addAll w options (add w options mapping name key r.1 r.2) name key regs := rfl
    rw [hstep]
    refine ⟨?_, ?_, fun _ => hdesc (descending_arraySort _)⟩
    · refine hperm.trans ?_
      simp only [List.map_cons, ← List.append_assoc, List.singleton_append]
      have := (perm_arraySort ((stored mapping name key).getD [] ++ [entryOf w options r.1 r.2]))
      simpa using this.append_right (regs.map (fun r => entryOf w options r.1 r.2))
    · intro p
      rw [hstable p, withPriority_append, withPriority_arraySort, ← withPriority_append]
      simp

/-! ## The loop of `exec` -/

theorem exec_eq (w : World) (options : Options) (mapping : Store)
    (name key : String) (data : JSVal) (args : List JSVal) :
    exec w options mapping name key data args =
      match stored mapping name key with
      | none => ⟨(creade mapping name).1, .fulfilled (data.orDefault (.obj [])), [], []⟩
      | some keys =>
        execLoop w options args keys (creade mapping name).1 (data.orDefault (.obj [])) := by
  rw [← creade_snd_get]
  rfl

/-- The three ways one turn of the loop goes on: the chain continues (the turn
was fulfilled, or it failed and the callback took the error and returned), the
callback threw, or there is no callback and the failure ends the chain.  In each
case the store has only seen API calls made by the user functions. -/
theorem execLoop_cons (w : World) (options : Options) (args : List JSVal)
    (plugin : Entry) (rest : List Entry) (mapping : Store) (result : JSVal) :
    (∃ ops,
      ((turn w options args plugin result).outcome.isFulfilled = true ∨
        ∃ cb e pd, options.error = .func cb ∧
          (turn w options args plugin result).outcome = .rejected e ∧
          (w.call cb options.toVal [e]).completion = .returns pd) ∧
      execLoop w options args (plugin :: rest) mapping result =
        ⟨(execLoop w options args rest (applyOps w options mapping ops)
            (afterStep result (turn w options args plugin result))).store,
         (execLoop w options args rest (applyOps w options mapping ops)
            (afterStep result (turn w options args plugin result))).outcome,
         turn w options args plugin result ::
           (execLoop w options args rest (applyOps w options mapping ops)
              (afterStep result (turn w options args plugin result))).steps,
         (turn w options args plugin result).outcome.error?.toList ++
           (execLoop w options args rest (applyOps w options mapping ops)
              (afterStep result (turn w options args plugin result))).reported⟩) ∨
    (∃ ops cb e e2, options.error = .func cb ∧
      (turn w options args plugin result).outcome = .rejected e ∧
      (w.call cb options.toVal [e]).completion = .throws e2 ∧
      execLoop w options args (plugin :: rest) mapping result =
        ⟨applyOps w options mapping ops, .rejected e2,
          [turn w options args plugin result], [e]⟩) ∨
    (∃ ops e, options.error.isFunction = false ∧
      (turn w options args plugin result).outcome = .rejected e ∧
      execLoop w options args (plugin :: rest) mapping result =
        ⟨applyOps w options mapping ops, .rejected e,
          [turn w options args plugin result], []⟩) := by
  cases hout : attempt w plugin.runner
      (w.call plugin.runner.fn.ref options.context (runnerArgs plugin.runner result args)) with
  | fulfilled v =>
    left
    refine ⟨(w.call plugin.runner.fn.ref options.context
        (runnerArgs plugin.runner result args)).ops,
      Or.inl (by simp [turn, hout, Settlement.isFulfilled]), ?_⟩
    simp only [execLoop, turn, hout, afterStep, replaceIfTruthy, JSVal.or, Settlement.error?,
      Option.toList, List.nil_append]
  | rejected e =>
    cases herr : options.error with
    | func cb =>
      cases hcb : (w.call cb options.toVal [e]).completion with
      | throws e2 =>
        right; left
        refine ⟨(w.call plugin.runner.fn.ref options.context
            (runnerArgs plugin.runner result args)).ops ++ (w.call cb options.toVal [e]).ops,
          cb, e, e2, rfl, by simp [turn, hout], hcb, ?_⟩
        simp only [execLoop, turn, hout, herr, hcb, applyOps, List.foldl_append]
      | returns pd =>
        left
        refine ⟨(w.call plugin.runner.fn.ref options.context
            (runnerArgs plugin.runner result args)).ops ++ (w.call cb options.toVal [e]).ops,
          Or.inr ⟨cb, e, pd, rfl, by simp [turn, hout], hcb⟩, ?_⟩
        simp only [execLoop, turn, hout, herr, hcb, afterStep, Settlement.error?,
          Option.toList, List.singleton_append, applyOps, List.foldl_append]
    | undefined | null | bool _ | num _ | nan | str _ | obj _ =>
      right; right
      refine ⟨(w.call plugin.runner.fn.ref options.context
          (runnerArgs plugin.runner result args)).ops,
        e, rfl, by simp [turn, hout], ?_⟩
      simp only [execLoop, turn, hout, herr]

/-! ## The result of a chain without failures -/

theorem foldl_replaceIfTruthy (data : JSVal) (vals : List JSVal) :
    vals.foldl replaceIfTruthy data = lastTruthy data vals := by
  induction vals generalizing data with
  | nil => rfl
  | cons v vs ih =>
    rw [List.foldl_cons, ih]
    unfold lastTruthy replaceIfTruthy
    by_cases hv : v.truthy = true
    · simp [List.filter_cons, hv, List.getLast?_cons]
    · simp [List.filter_cons, hv]

theorem running_cons (data : JSVal) (s : Step) (steps : List Step) :
    running data (s :: steps) = running (afterStep data s) steps := rfl

theorem execLoop_fulfilled (w : World) (options : Options) (args : List JSVal)
    (hs : List Entry) (mapping : Store) (result : JSVal)
    (hok : ∀ s ∈ (execLoop w options args hs mapping result).steps,
      s.outcome.isFulfilled = true) :
    (execLoop w options args hs mapping result).steps.map (fun s => s.entry) = hs ∧
    (execLoop w options args hs mapping result).outcome =
      .fulfilled (((execLoop w options args hs mapping result).steps.filterMap
        (fun s => s.outcome.value?)).foldl replaceIfTruthy result) ∧
    (execLoop w options args hs mapping result).reported = [] := by
  induction hs generalizing mapping result with
  | nil => simp [execLoop]
  | cons plugin rest ih =>
    rcases execLoop_cons w options args plugin rest mapping result with
      ⟨m2, _, heq⟩ | ⟨m2, cb, e, e2, _, hrej, _, heq⟩ | ⟨m2, e, _, hrej, heq⟩
    · rw [heq] at hok ⊢
      have hturn : (turn w options args plugin result).outcome.isFulfilled = true :=
        hok _ (List.mem_cons_self _ _)
      obtain ⟨h1, h2, h3⟩ := ih _ (afterStep result (turn w options args plugin result))
        (fun s hsm => hok s (List.mem_cons_of_mem _ hsm))
      cases hv : (turn w options args plugin result).outcome with
      | rejected e => simp [hv, Settlement.isFulfilled] at hturn
      | fulfilled v =>
        have hfm : ∀ steps : List Step,
            (turn w options args plugin result :: steps).filterMap (fun s => s.outcome.value?) =
              v :: steps.filterMap (fun s => s.outcome.value?) := by
          intro steps
          simp [List.filterMap_cons, hv, Settlement.value?]
        have hafter : afterStep result (turn w options args plugin result) =
            replaceIfTruthy result v := by
          simp [afterStep, hv]
        refine ⟨?_, ?_, ?_⟩
        · simp only [List.map_cons, h1]
          rfl
        · show (execLoop w options args rest _ _).outcome = _
          rw [h2, hfm, List.foldl_cons, hafter]
        · show _ ++ (execLoop w options args rest _ _).reported = _
          rw [h3]
          rfl
    · rw [heq] at hok
      have := hok _ (List.mem_singleton_self _)
      simp [hrej, Settlement.isFulfilled] at this
    · rw [heq] at hok
      have := hok _ (List.mem_singleton_self _)
      simp [hrej, Settlement.isFulfilled] at this

/-- C1: when no handler of the chain registered under `(name, key)` fails,
`exec` invokes the handlers of the list in order and resolves to the fold of
their settled values starting from `data` (the value of the parameter: the
argument, or `{}` for an omitted one), in which a non-falsy value replaces the
running result and a falsy one (`undefined`, `null`, `false`, `0`, `""`) leaves
it; an empty object replaces it; the result is the last non-falsy value, or
`data` when there is none. -/
theorem exec_resolves_to_fold (w : World) (options : Options) (mapping : Store)
    (name key : String) (data : JSVal) (args : List JSVal) (hs : List Entry)
    (hreg : stored mapping name key = some hs)
    (hok : ∀ s ∈ (exec w options mapping name key data args).steps,
      s.outcome.isFulfilled = true) :
    (exec w options mapping name key data args).steps.map (fun s => s.entry) = hs ∧
    (exec w options mapping name key data args).outcome =
      .fulfilled (((exec w options mapping name key data args).steps.filterMap
          (fun s => s.outcome.value?)).foldl
        (fun result v => if v.truthy then v else result) (data.orDefault (.obj []))) ∧
    (exec w options mapping name key data args).outcome =
      .fulfilled (lastTruthy (data.orDefault (.obj []))
        ((exec w options mapping name key data args).steps.filterMap
          (fun s => s.outcome.value?))) ∧
    (∀ result : JSVal,
      replaceIfTruthy result (.obj []) = .obj [] ∧
      replaceIfTruthy result .undefined = result ∧
      replaceIfTruthy result .null = result ∧
      replaceIfTruthy result (.bool false) = result ∧
      replaceIfTruthy result (.num 0) = result ∧
      replaceIfTruthy result (.str "") = result) := by
  rw [exec_eq, hreg] at hok ⊢
  obtain ⟨h1, h2, _⟩ := execLoop_fulfilled w options args hs _ _ hok
  refine ⟨h1, h2, ?_, fun result => ⟨rfl, rfl, rfl, rfl, rfl, rfl⟩⟩
  rw [← foldl_replaceIfTruthy]
  exact h2

theorem exec_resolves_to_fold_witness :
    stored sampleStore "map" "example" = some sampleChain ∧
    (∀ s ∈ (exec sampleWorld plainOptions sampleStore "map" "example" sampleData []).steps,
      s.outcome.isFulfilled = true) ∧
    (exec sampleWorld plainOptions sampleStore "map" "example" sampleData []).outcome =
      .fulfilled (.obj [("send", .str "help")]) :=
  ⟨rfl, by decide,
    (exec_resolves_to_fold sampleWorld plainOptions sampleStore "map" "example" sampleData []
      sampleChain rfl (by decide)).2.1.trans rfl⟩

/-! ## Order of registration, order of execution -/

theorem exec_entries_of_fulfilled (w : World) (options : Options) (mapping : Store)
    (name key : String) (data : JSVal) (args : List JSVal)
    (hok : ∀ s ∈ (exec w options mapping name key data args).steps,
      s.outcome.isFulfilled = true) :
    (exec w options mapping name key data args).steps.map (fun s => s.entry) =
      (stored mapping name key).getD [] := by
  rw [exec_eq] at hok ⊢
  cases hreg : stored mapping name key with
  | none => rfl
  | some hs =>
    rw [hreg] at hok
    exact (execLoop_fulfilled w options args hs _ _ hok).1

theorem stored_nil (name key : String) : stored [] name key = none := rfl

/-- C2: after any sequence of `add` calls to one `(name, key)` of an empty
registry, an `exec` on that key in which no handler fails invokes the
registered entries each exactly once (the invoked entries are a permutation of
the registered ones, and so are their handlers), in non-increasing priority
order, and the entries of any one priority in the order of their registration. -/
theorem exec_invokes_in_priority_order (w : World) (options : Options)
    (name key : String) (regs : List Registration) (data : JSVal) (args : List JSVal)
    (hok : ∀ s ∈ (exec w options (addAll w options [] name key regs)
        name key data args).steps, s.outcome.isFulfilled = true) :
    ((exec w options (addAll w options [] name key regs) name key data args).steps.map
        (fun s => s.entry)).Perm (regs.map (fun r => entryOf w options r.1 r.2)) ∧
    ((exec w options (addAll w options [] name key regs) name key data args).steps.map
        (fun s => s.entry.fn.ref)).Perm (regs.map (fun r => r.1.ref)) ∧
    Descending ((exec w options (addAll w options [] name key regs)
        name key data args).steps.map (fun s => s.entry)) ∧
    (∀ p, withPriority p ((exec w options (addAll w options [] name key regs)
        name key data args).steps.map (fun s => s.entry)) =
      withPriority p (regs.map (fun r => entryOf w options r.1 r.2))) := by
  have hentries := exec_entries_of_fulfilled w options _ name key data args hok
  obtain ⟨hperm, hstable, hdesc⟩ := stored_addAll w options name key regs []
  simp only [stored_nil, Option.getD_none, List.nil_append] at hperm hstable hdesc
  rw [← hentries] at hperm hstable hdesc
  refine ⟨hperm, ?_, hdesc List.Pairwise.nil, hstable⟩
  have h := hperm.map (fun e : Entry => e.fn.ref)
  simp only [List.map_map] at h
  exact h

theorem exec_invokes_in_priority_order_witness :
    (∀ s ∈ (exec sampleWorld plainOptions
        (addAll sampleWorld plainOptions [] "map" "example"
          [(plainFn 2, withPrio 95), (plainFn 1, withPrio 195), (plainFn 4, none)])
        "map" "example" sampleData []).steps, s.outcome.isFulfilled = true) ∧
    (exec sampleWorld plainOptions
        (addAll sampleWorld plainOptions [] "map" "example"
          [(plainFn 2, withPrio 95), (plainFn 1, withPrio 195), (plainFn 4, none)])
        "map" "example" sampleData []).steps.map (fun s => s.entry.fn.ref) = [1, 4, 2] ∧
    Descending ((exec sampleWorld plainOptions
        (addAll sampleWorld plainOptions [] "map" "example"
          [(plainFn 2, withPrio 95), (plainFn 1, withPrio 195), (plainFn 4, none)])
        "map" "example" sampleData []).steps.map (fun s => s.entry)) :=
  ⟨by decide, by decide,
    (exec_invokes_in_priority_order sampleWorld plainOptions "map" "example"
      [(plainFn 2, withPrio 95), (plainFn 1, withPrio 195), (plainFn 4, none)]
      sampleData [] (by decide)).2.2.1⟩

/-! ## The order of the stored arrays -/

theorem allDescending_add (w : World) (options : Options) (mapping : Store)
    (name key : String) (fn : JSFunction) (opts? : Option Opts)
    (h : AllDescending mapping) : AllDescending (add w options mapping name key fn opts?) := by
  intro name2 key2 l hl
  by_cases hsame : name2 = name ∧ key2 = key
  · obtain ⟨rfl, rfl⟩ := hsame
    rw [stored_add_self] at hl
    cases hl
    exact descending_arraySort _
  · rw [stored_add_other _ _ _ _ _ _ _ _ _ hsame] at hl
    exact h name2 key2 l hl

theorem allDescending_remove (mapping : Store) (name key : String) (fn : Option JSFunction)
    (h : AllDescending mapping) : AllDescending (remove mapping name key fn) := by
  intro name2 key2 l hl
  by_cases hsame : name2 = name ∧ key2 = key
  · obtain ⟨rfl, rfl⟩ := hsame
    rw [stored_remove_self] at hl
    cases hs : stored mapping name2 key2 with
    | none => simp [hs] at hl
    | some keys =>
      cases fn with
      | none => simp [hs] at hl
      | some f =>
        simp only [hs] at hl
        split at hl
        · cases hl
          exact List.Pairwise.sublist (List.filter_sublist _) (h name2 key2 keys hs)
        · cases hl
  · rw [stored_remove_other _ _ _ _ _ _ hsame] at hl
    exact h name2 key2 l hl

theorem allDescending_applyOps (w : World) (options : Options) (ops : List Op)
    (mapping : Store) (h : AllDescending mapping) :
    AllDescending (applyOps w options mapping ops) := by
  induction ops generalizing mapping with
  | nil => exact h
  | cons op ops ih =>
    refine ih _ ?_
    cases op with
    | add name key fn opts => exact allDescending_add w options mapping name key fn opts h
    | remove name key fn => exact allDescending_remove mapping name key fn h
    | exec name key =>
      intro name2 key2 l hl
      exact h name2 key2 l ((stored_creade mapping name name2 key2).symm.trans hl)

/-- C3: in every registry state reached from the empty registry by a sequence of
`add` and `remove` calls (priorities are integers), the array stored under any
`(name, key)` is non-increasing in priority. -/
theorem stored_descending (w : World) (options : Options) (ops : List Op)
    (name key : String) (l : List Entry)
    (h : stored (applyOps w options [] ops) name key = some l) : Descending l :=
  allDescending_applyOps w options ops [] (fun _ _ _ hl => by cases hl) name key l h

theorem stored_descending_witness :
    stored (applyOps sampleWorld plainOptions []
        [.add "map" "example" (plainFn 1) (withPrio 90),
         .add "map" "example" (plainFn 2) (withPrio 120),
         .add "map" "example" (plainFn 4) none,
         .remove "map" "example" (some (plainFn 2))]) "map" "example" =
      some [entryOf sampleWorld plainOptions (plainFn 4) none,
            entryOf sampleWorld plainOptions (plainFn 1) (withPrio 90)] ∧
    Descending [entryOf sampleWorld plainOptions (plainFn 4) none,
                entryOf sampleWorld plainOptions (plainFn 1) (withPrio 90)] :=
  ⟨rfl, stored_descending sampleWorld plainOptions
      [.add "map" "example" (plainFn 1) (withPrio 90),
       .add "map" "example" (plainFn 2) (withPrio 120),
       .add "map" "example" (plainFn 4) none,
       .remove "map" "example" (some (plainFn 2))] "map" "example" _ rfl⟩

/-- C4: after any sequence of `add` calls to one `(name, key)` of an empty
registry, the entries of any one priority stand in the stored array in the
order of their registration; hence two entries of equal priority, the first
registered before the second, stand in that order in the array. -/
theorem addAll_stable (w : World) (options : Options)
    (name key : String) (regs : List Registration) :
    (∀ p, withPriority p ((stored (addAll w options [] name key regs) name key).getD []) =
      withPriority p (regs.map (fun r => entryOf w options r.1 r.2))) ∧
    (∀ a b : Entry, a.priority = b.priority →
      List.Sublist [a, b] (regs.map (fun r => entryOf w options r.1 r.2)) →
      List.Sublist [a, b] ((stored (addAll w options [] name key regs) name key).getD [])) := by
  obtain ⟨_, hstable, _⟩ := stored_addAll w options name key regs []
  simp only [stored_nil, Option.getD_none, List.nil_append] at hstable
  refine ⟨hstable, fun a b hab hsub => ?_⟩
  have h1 : List.Sublist (withPriority a.priority [a, b])
      (withPriority a.priority (regs.map (fun r => entryOf w options r.1 r.2))) :=
    List.Sublist.filter _ hsub
  rw [← hstable] at h1
  have h2 : withPriority a.priority [a, b] = [a, b] := by
    simp [withPriority, hab]
  rw [h2] at h1
  exact h1.trans (List.filter_sublist _)

theorem addAll_stable_witness :
    ((stored (addAll sampleWorld plainOptions [] "map" "example" tiedRegs)
        "map" "example").getD []).map (fun e => e.fn.ref) = [1, 2, 4] ∧
    withPriority 100
        ((stored (addAll sampleWorld plainOptions [] "map" "example" tiedRegs)
          "map" "example").getD []) =
      withPriority 100 (tiedRegs.map (fun r => entryOf sampleWorld plainOptions r.1 r.2)) :=
  ⟨by decide, (addAll_stable sampleWorld plainOptions "map" "example" tiedRegs).1 100⟩

/-! ## Failures without an error callback -/

theorem execLoop_abort (w : World) (options : Options) (args : List JSVal)
    (hno : options.error.isFunction = false)
    (hs : List Entry) (mapping : Store) (result : JSVal)
    (hfail : ∃ s ∈ (execLoop w options args hs mapping result).steps,
      s.outcome.isFulfilled = false) :
    ∃ (k : Nat) (e : JSVal) (done : List Step) (failing : Step),
      k < hs.length ∧
      (execLoop w options args hs mapping result).steps = done ++ [failing] ∧
      done.length = k ∧
      (∀ s ∈ done, s.outcome.isFulfilled = true) ∧
      failing.outcome = .rejected e ∧
      (execLoop w options args hs mapping result).outcome = .rejected e ∧
      (execLoop w options args hs mapping result).steps.map (fun s => s.entry) =
        hs.take (k + 1) ∧
      (execLoop w options args hs mapping result).reported = [] := by
  induction hs generalizing mapping result with
  | nil =>
    obtain ⟨s, hs, _⟩ := hfail
    simp [execLoop] at hs
  | cons plugin rest ih =>
    rcases execLoop_cons w options args plugin rest mapping result with
      ⟨ops, hcase, heq⟩ | ⟨ops, cb, e, e2, herr, _, _, _⟩ | ⟨ops, e, _, hrej, heq⟩
    · have hturn : (turn w options args plugin result).outcome.isFulfilled = true := by
        rcases hcase with h | ⟨cb, _, _, herr, _, _⟩
        · exact h
        · simp [herr, JSVal.isFunction] at hno
      rw [heq] at hfail ⊢
      obtain ⟨s, hsmem, hsfail⟩ := hfail
      have hsrest : s ∈ (execLoop w options args rest (applyOps w options mapping ops)
          (afterStep result (turn w options args plugin result))).steps := by
        rcases List.mem_cons.1 hsmem with h | h
        · rw [h, hturn] at hsfail
          cases hsfail
        · exact h
      obtain ⟨k, e, done, failing, hk, hsteps, hlen, hdone, hout, hres, hmap, hrep⟩ :=
        ih _ _ ⟨s, hsrest, hsfail⟩
      refine ⟨k + 1, e, turn w options args plugin result :: done, failing, ?_, ?_, ?_, ?_,
        hout, hres, ?_, ?_⟩
      · simp only [List.length_cons]
        omega
      · simp only [hsteps, List.cons_append]
      · simp only [List.length_cons, hlen]
      · intro s hs
        rcases List.mem_cons.1 hs with h | h
        · rw [h]
          exact hturn
        · exact hdone s h
      · simp only [List.map_cons, hmap, List.take_succ_cons]
        rfl
      · cases hv : (turn w options args plugin result).outcome with
        | rejected e => simp [hv, Settlement.isFulfilled] at hturn
        | fulfilled v =>
          show _ ++ (execLoop w options args rest _ _).reported = _
          rw [hrep]
          rfl
    · simp [herr, JSVal.isFunction] at hno
    · rw [heq]
      refine ⟨0, e, [], turn w options args plugin result, by simp, rfl, rfl, by simp, hrej,
        rfl, ?_, rfl⟩
      simp only [List.map_cons, List.map_nil, List.take_succ_cons, List.take_zero]
      rfl

theorem execLoop_turns (w : World) (options : Options) (args : List JSVal)
    (hs : List Entry) (mapping : Store) (result : JSVal) (i : Nat)
    (h : i < (execLoop w options args hs mapping result).steps.length) :
    (execLoop w options args hs mapping result).steps.get ⟨i, h⟩ =
      turn w options args ((execLoop w options args hs mapping result).steps.get ⟨i, h⟩).entry
        (running result ((execLoop w options args hs mapping result).steps.take i)) := by
  induction hs generalizing mapping result i with
  | nil => simp [execLoop] at h
  | cons plugin rest ih =>
    have key : ∀ (r : ExecResult) (tail : List Step),
        execLoop w options args (plugin :: rest) mapping result = r →
        r.steps = turn w options args plugin result :: tail →
        (∀ j (hj : j < tail.length), tail.get ⟨j, hj⟩ =
          turn w options args (tail.get ⟨j, hj⟩).entry
            (running (afterStep result (turn w options args plugin result)) (tail.take j))) →
        ∀ (hi : i < r.steps.length), r.steps.get ⟨i, hi⟩ =
          turn w options args (r.steps.get ⟨i, hi⟩).entry (running result (r.steps.take i)) := by
      intro r tail _ hsteps htail hi
      cases i with
      | zero =>
        simp only [hsteps, List.get_eq_getElem, List.getElem_cons_zero, List.take_zero]
        rfl
      | succ j =>
        have hj : j < tail.length := by
          rw [hsteps] at hi
          simpa using hi
        have := htail j hj
        simp only [hsteps, List.get_eq_getElem, List.getElem_cons_succ, List.take_succ_cons,
          running_cons] at this ⊢
        exact this
    rcases execLoop_cons w options args plugin rest mapping result with
      ⟨ops, _, heq⟩ | ⟨ops, cb2, e, e2, _, _, _, heq⟩ | ⟨ops, e, _, _, heq⟩
    · have := key _ _ heq rfl (fun j hj => ih _ _ j hj)
      rw [← heq] at this
      exact this h
    · have := key _ [] heq rfl (fun j hj => by simp at hj)
      rw [← heq] at this
      exact this h
    · have := key _ [] heq rfl (fun j hj => by simp at hj)
      rw [← heq] at this
      exact this h

theorem attempt_rejected_iff (w : World) (runner : Runner) (run : Run) (e : JSVal) :
    attempt w runner run = .rejected e ↔
      (run.completion = .throws e ∨
        ∃ p, run.completion = .returns p ∧ w.borked p runner.timeout = .rejected e) := by
  unfold attempt
  cases hc : run.completion with
  | throws e2 => simp
  | returns p => simp

theorem attempt_fulfilled_iff (w : World) (runner : Runner) (run : Run) (v : JSVal) :
    attempt w runner run = .fulfilled v ↔
      ∃ p, run.completion = .returns p ∧ w.borked p runner.timeout = .fulfilled v := by
  unfold attempt
  cases hc : run.completion with
  | throws e2 => simp
  | returns p => simp

/-- A recorded turn is the call of its entry at some running result, so its
outcome is a rejection exactly when the handler fails, with the same error, and
a fulfilment exactly when the handler settles, with the same value. -/
theorem turn_outcome_iff (w : World) (options : Options) (args : List JSVal) (s : Step)
    (result : JSVal) (hs : s = turn w options args s.entry result) :
    (∀ e, s.FailsWith w e ↔ s.outcome = .rejected e) ∧
    (∀ v, s.SettlesWith w v ↔ s.outcome = .fulfilled v) := by
  have hrecv : s.receiver = options.context := congrArg Step.receiver hs
  have hargs : s.args = runnerArgs s.entry.runner result args := congrArg Step.args hs
  have hout : s.outcome = attempt w s.entry.runner
      (w.call s.entry.runner.fn.ref options.context
        (runnerArgs s.entry.runner result args)) := congrArg Step.outcome hs
  constructor
  · intro e
    unfold Step.FailsWith Step.completion
    rw [hrecv, hargs, hout]
    exact (attempt_rejected_iff w _ _ e).symm
  · intro v
    unfold Step.SettlesWith Step.completion
    rw [hrecv, hargs, hout]
    exact (attempt_fulfilled_iff w _ _ v).symm

theorem exec_steps_outcome_iff (w : World) (options : Options) (mapping : Store)
    (name key : String) (data : JSVal) (args : List JSVal) :
    ∀ s ∈ (exec w options mapping name key data args).steps,
      (∀ e, s.FailsWith w e ↔ s.outcome = .rejected e) ∧
      (∀ v, s.SettlesWith w v ↔ s.outcome = .fulfilled v) := by
  intro s hs
  rw [exec_eq] at hs
  cases hreg : stored mapping name key with
  | none =>
    rw [hreg] at hs
    cases hs
  | some keys =>
    rw [hreg] at hs
    obtain ⟨⟨i, hi⟩, hget⟩ := List.mem_iff_get.1 hs
    have hturn := execLoop_turns w options args keys (creade mapping name).1
      (data.orDefault (.obj [])) i hi
    rw [hget] at hturn
    exact turn_outcome_iff w options args s _ hturn

/-- C5: in a registry created without an error callback, when some handler of
the chain registered under `(name, key)` fails (its call throws, its promise is
rejected, or the race against its timeout is lost), the first handler that
fails, at index `k` of the list, ends the chain: every handler before it
settled, `exec` rejects with exactly the error that handler failed with, the
entries invoked are exactly the first `k + 1` of the list, no later entry is
invoked, and the callback is never called. -/
theorem exec_rejects_with_first_failure (w : World) (options : Options) (mapping : Store)
    (name key : String) (data : JSVal) (args : List JSVal) (hs : List Entry)
    (hno : options.error.isFunction = false)
    (hreg : stored mapping name key = some hs)
    (hfail : ∃ s ∈ (exec w options mapping name key data args).steps,
      ∃ e, s.FailsWith w e) :
    ∃ (k : Nat) (e : JSVal) (done : List Step) (failing : Step),
      k < hs.length ∧
      (exec w options mapping name key data args).steps = done ++ [failing] ∧
      done.length = k ∧
      (∀ s ∈ done, ∃ v, s.SettlesWith w v ∧ s.outcome = .fulfilled v) ∧
      failing.FailsWith w e ∧
      failing.outcome = .rejected e ∧
      (exec w options mapping name key data args).outcome = .rejected e ∧
      (exec w options mapping name key data args).steps.map (fun s => s.entry) =
        hs.take (k + 1) ∧
      (exec w options mapping name key data args).reported = [] := by
  have hiff := exec_steps_outcome_iff w options mapping name key data args
  have hfail2 : ∃ s ∈ (exec w options mapping name key data args).steps,
      s.outcome.isFulfilled = false := by
    obtain ⟨s, hsmem, e, he⟩ := hfail
    refine ⟨s, hsmem, ?_⟩
    rw [((hiff s hsmem).1 e).1 he]
    rfl
  rw [exec_eq, hreg] at hfail2 hiff ⊢
  obtain ⟨k, e, done, failing, hk, hsteps, hlen, hdone, hout, hres, hmap, hrep⟩ :=
    execLoop_abort w options args hno hs _ _ hfail2
  refine ⟨k, e, done, failing, hk, hsteps, hlen, ?_, ?_, hout, hres, hmap, hrep⟩
  · intro s hsd
    have hsmem : s ∈ (execLoop w options args hs (creade mapping name).1
        (data.orDefault (.obj []))).steps := by
      rw [hsteps]
      exact List.mem_append_left _ hsd
    have hful := hdone s hsd
    cases hv : s.outcome with
    | rejected e2 => simp [hv, Settlement.isFulfilled] at hful
    | fulfilled v => exact ⟨v, ((hiff s hsmem).2 v).2 hv, rfl⟩
  · have hsmem : failing ∈ (execLoop w options args hs (creade mapping name).1
        (data.orDefault (.obj []))).steps := by
      rw [hsteps]
      exact List.mem_append_right _ (List.mem_singleton_self _)
    exact ((hiff failing hsmem).1 e).2 hout

theorem exec_rejects_with_first_failure_witness :
    plainOptions.error.isFunction = false ∧
    stored (addAll sampleWorld plainOptions [] "map" "example" lateRegs) "map" "example" =
      some (lateRegs.map (fun r => entryOf sampleWorld plainOptions r.1 r.2)) ∧
    (exec sampleWorld plainOptions
        (addAll sampleWorld plainOptions [] "map" "example" lateRegs)
        "map" "example" sampleData []).outcome = .rejected sampleTimeoutError ∧
    (exec sampleWorld plainOptions
        (addAll sampleWorld plainOptions [] "map" "example" lateRegs)
        "map" "example" sampleData []).steps.map (fun s => s.entry.fn.ref) = [2, 11] ∧
    (exec sampleWorld plainOptions
        (addAll sampleWorld plainOptions [] "map" "example" throwingFirstRegs)
        "map" "example" sampleData []).outcome = .rejected sampleError ∧
    (exec sampleWorld plainOptions
        (addAll sampleWorld plainOptions [] "map" "example" throwingFirstRegs)
        "map" "example" sampleData []).steps.map (fun s => s.entry.fn.ref) = [2, 10] ∧
    ∃ (k : Nat) (e : JSVal) (done : List Step) (failing : Step),
      k < (lateRegs.map (fun r => entryOf sampleWorld plainOptions r.1 r.2)).length ∧
      (exec sampleWorld plainOptions
        (addAll sampleWorld plainOptions [] "map" "example" lateRegs)
        "map" "example" sampleData []).steps = done ++ [failing] ∧
      done.length = k ∧
      (∀ s ∈ done, ∃ v, s.SettlesWith sampleWorld v ∧ s.outcome = .fulfilled v) ∧
      failing.FailsWith sampleWorld e ∧
      failing.outcome = .rejected e ∧
      (exec sampleWorld plainOptions
        (addAll sampleWorld plainOptions [] "map" "example" lateRegs)
        "map" "example" sampleData []).outcome = .rejected e ∧
      (exec sampleWorld plainOptions
        (addAll sampleWorld plainOptions [] "map" "example" lateRegs)
        "map" "example" sampleData []).steps.map (fun s => s.entry) =
        (lateRegs.map (fun r => entryOf sampleWorld plainOptions r.1 r.2)).take (k + 1) ∧
      (exec sampleWorld plainOptions
        (addAll sampleWorld plainOptions [] "map" "example" lateRegs)
        "map" "example" sampleData []).reported = [] :=
  ⟨rfl, rfl, rfl, by decide, rfl, by decide,
    exec_rejects_with_first_failure sampleWorld plainOptions
      (addAll sampleWorld plainOptions [] "map" "example" lateRegs)
      "map" "example" sampleData [] _ rfl rfl
      ⟨_, List.Mem.tail _ (List.Mem.head _), sampleTimeoutError,
        Or.inr ⟨.settles 100 (.fulfilled (.str "late")), rfl, rfl⟩⟩⟩

/-! ## Failures with an error callback -/

theorem running_eq_foldl (data : JSVal) (steps : List Step) :
    running data steps =
      (steps.filterMap (fun s => s.outcome.value?)).foldl replaceIfTruthy data := by
  induction steps generalizing data with
  | nil => rfl
  | cons s steps ih =>
    rw [running_cons, ih]
    cases hv : s.outcome with
    | fulfilled v => simp [List.filterMap_cons, hv, Settlement.value?, afterStep]
    | rejected e => simp [List.filterMap_cons, hv, Settlement.value?, afterStep]

theorem execLoop_isolated (w : World) (options : Options) (args : List JSVal) (cb : Nat)
    (hcb : options.error = .func cb)
    (hquiet : ∀ e, ∃ pd, (w.call cb options.toVal [e]).completion = .returns pd)
    (hs : List Entry) (mapping : Store) (result : JSVal) :
    (execLoop w options args hs mapping result).outcome =
      .fulfilled (running result (execLoop w options args hs mapping result).steps) ∧
    (execLoop w options args hs mapping result).steps.map (fun s => s.entry) = hs ∧
    (execLoop w options args hs mapping result).reported =
      (execLoop w options args hs mapping result).steps.filterMap
        (fun s => s.outcome.error?) := by
  induction hs generalizing mapping result with
  | nil => simp [execLoop, running]
  | cons plugin rest ih =>
    rcases execLoop_cons w options args plugin rest mapping result with
      ⟨ops, _, heq⟩ | ⟨ops, cb2, e, e2, herr, _, hthrow, _⟩ | ⟨ops, e, hno, _, _⟩
    · obtain ⟨h1, h2, h3⟩ := ih (applyOps w options mapping ops)
        (afterStep result (turn w options args plugin result))
      rw [heq]
      refine ⟨?_, ?_, ?_⟩
      · show (execLoop w options args rest _ _).outcome = _
        rw [h1]
        rfl
      · simp only [List.map_cons, h2]
        rfl
      · show _ ++ (execLoop w options args rest _ _).reported = _
        rw [h3]
        cases hv : (turn w options args plugin result).outcome with
        | fulfilled v => simp [List.filterMap_cons, hv, Settlement.error?]
        | rejected e => simp [List.filterMap_cons, hv, Settlement.error?]
    · rw [hcb] at herr
      cases herr
      obtain ⟨pd, hpd⟩ := hquiet e
      rw [hpd] at hthrow
      cases hthrow
    · simp [hcb, JSVal.isFunction] at hno

/-- C6: in a registry created with an error callback that does not throw,
`exec` on a registered chain does not reject.  Every entry of the list is
invoked, in order; a handler fails (its call throws, its promise is rejected,
or the race against its timeout is lost) exactly when its turn is recorded as
rejected, with the same error, and the callback receives the errors of exactly
the failing handlers, in order; every turn is called with the running result of
the turns before it, which a failing turn leaves as it was; and the promise
resolves to the last non-falsy value the handlers settled with, or to `data`
when there is none. -/
theorem exec_isolates_failures (w : World) (options : Options) (mapping : Store)
    (name key : String) (data : JSVal) (args : List JSVal) (hs : List Entry) (cb : Nat)
    (hcb : options.error = .func cb)
    (hquiet : ∀ e, ∃ pd, (w.call cb options.toVal [e]).completion = .returns pd)
    (hreg : stored mapping name key = some hs) :
    (exec w options mapping name key data args).outcome =
      .fulfilled (lastTruthy (data.orDefault (.obj []))
        ((exec w options mapping name key data args).steps.filterMap
          (fun s => s.outcome.value?))) ∧
    (exec w options mapping name key data args).steps.map (fun s => s.entry) = hs ∧
    (exec w options mapping name key data args).reported =
      (exec w options mapping name key data args).steps.filterMap
        (fun s => s.outcome.error?) ∧
    (∀ i (h : i < (exec w options mapping name key data args).steps.length),
      ((exec w options mapping name key data args).steps.get ⟨i, h⟩).args =
        runnerArgs ((exec w options mapping name key data args).steps.get ⟨i, h⟩).entry.runner
          (running (data.orDefault (.obj []))
            ((exec w options mapping name key data args).steps.take i)) args) ∧
    (∀ (result : JSVal) (s : Step) (e : JSVal),
      s.outcome = .rejected e → afterStep result s = result) ∧
    (∀ s ∈ (exec w options mapping name key data args).steps,
      (∀ e, s.FailsWith w e ↔ s.outcome = .rejected e) ∧
      (∀ v, s.SettlesWith w v ↔ s.outcome = .fulfilled v)) ∧
    (∀ e, e ∈ (exec w options mapping name key data args).reported ↔
      ∃ s ∈ (exec w options mapping name key data args).steps, s.FailsWith w e) := by
  have hiff := exec_steps_outcome_iff w options mapping name key data args
  have hrep : (exec w options mapping name key data args).reported =
      (exec w options mapping name key data args).steps.filterMap
        (fun s => s.outcome.error?) := by
    rw [exec_eq, hreg]
    exact (execLoop_isolated w options args cb hcb hquiet hs
      (creade mapping name).1 (data.orDefault (.obj []))).2.2
  refine ⟨?_, ?_, hrep, ?_, ?_, hiff, ?_⟩
  · rw [exec_eq, hreg]
    rw [(execLoop_isolated w options args cb hcb hquiet hs
      (creade mapping name).1 (data.orDefault (.obj []))).1, running_eq_foldl,
      foldl_replaceIfTruthy]
  · rw [exec_eq, hreg]
    exact (execLoop_isolated w options args cb hcb hquiet hs
      (creade mapping name).1 (data.orDefault (.obj []))).2.1
  · rw [exec_eq, hreg]
    intro i h
    have := execLoop_turns w options args hs (creade mapping name).1
      (data.orDefault (.obj [])) i h
    exact congrArg Step.args this
  · intro result s e hs
    simp [afterStep, hs]
  · intro e
    rw [hrep, List.mem_filterMap]
    constructor
    · rintro ⟨s, hsmem, hse⟩
      refine ⟨s, hsmem, ((hiff s hsmem).1 e).2 ?_⟩
      cases hv : s.outcome with
      | fulfilled v => simp [hv, Settlement.error?] at hse
      | rejected e2 =>
        simp only [hv, Settlement.error?, Option.some.injEq] at hse
        rw [hse]
    · rintro ⟨s, hsmem, hse⟩
      refine ⟨s, hsmem, ?_⟩
      rw [((hiff s hsmem).1 e).1 hse]
      rfl

theorem exec_isolates_failures_witness :
    isolatingOptions.error = .func 8 ∧
    (∀ e, ∃ pd, (sampleWorld.call 8 isolatingOptions.toVal [e]).completion = .returns pd) ∧
    stored (addAll sampleWorld isolatingOptions [] "map" "example" failingRegs)
        "map" "example" =
      some (failingRegs.map (fun r => entryOf sampleWorld isolatingOptions r.1 r.2)) ∧
    (exec sampleWorld isolatingOptions
        (addAll sampleWorld isolatingOptions [] "map" "example" failingRegs)
        "map" "example" sampleData []).outcome = .fulfilled (.obj []) ∧
    (exec sampleWorld isolatingOptions
        (addAll sampleWorld isolatingOptions [] "map" "example" failingRegs)
        "map" "example" sampleData []).reported =
      [sampleError, sampleError, sampleTimeoutError] ∧
    (exec sampleWorld isolatingOptions
        (addAll sampleWorld isolatingOptions [] "map" "example" failingRegs)
        "map" "example" sampleData []).steps.map (fun s => s.entry.fn.ref) =
      [6, 10, 3, 11, 7] ∧
    (exec sampleWorld isolatingOptions
        (addAll sampleWorld isolatingOptions [] "map" "example" failingRegs)
        "map" "example" sampleData []).steps.map (fun s => s.entry) =
      failingRegs.map (fun r => entryOf sampleWorld isolatingOptions r.1 r.2) :=
  ⟨rfl, fun _ => ⟨_, rfl⟩, rfl, rfl, rfl, by decide,
    (exec_isolates_failures sampleWorld isolatingOptions
      (addAll sampleWorld isolatingOptions [] "map" "example" failingRegs)
      "map" "example" sampleData [] _ 8 rfl (fun _ => ⟨_, rfl⟩) rfl).2.1⟩

/-! ## The arguments of a handler -/

theorem entryOf_mem_add (w : World) (options : Options) (mapping : Store)
    (name key : String) (fn : JSFunction) (opts? : Option Opts) :
    entryOf w options fn opts? ∈
      (stored (add w options mapping name key fn opts?) name key).getD [] := by
  rw [stored_add_self, Option.getD_some]
  exact (perm_arraySort _).mem_iff.2 (by simp)

/-- C10: every turn of `exec` calls the function of its entry, with the
receiver `options.context`, on the running result followed by the extra
arguments in their order followed by one last argument, the options object of
the entry; the running result of a turn is `data` (the value of the parameter)
folded over the turns before it.  The options object of an entry created by
`add` is the `opts` argument of that call, the empty object when none was given. -/
theorem exec_handler_arguments (w : World) (options : Options) (mapping : Store)
    (name key : String) (data : JSVal) (args : List JSVal) :
    (∀ i (h : i < (exec w options mapping name key data args).steps.length),
      (exec w options mapping name key data args).steps.get ⟨i, h⟩ =
        turn w options args
          ((exec w options mapping name key data args).steps.get ⟨i, h⟩).entry
          (running (data.orDefault (.obj []))
            ((exec w options mapping name key data args).steps.take i)) ∧
      ((exec w options mapping name key data args).steps.get ⟨i, h⟩).args =
        [running (data.orDefault (.obj []))
            ((exec w options mapping name key data args).steps.take i)] ++ args ++
          [((exec w options mapping name key data args).steps.get
              ⟨i, h⟩).entry.runner.opts.toVal]) ∧
    (∀ (fn : JSFunction) (opts : Opts),
      entryOf w options fn (some opts) ∈
        (stored (add w options mapping name key fn (some opts)) name key).getD [] ∧
      (entryOf w options fn (some opts)).runner.fn = fn ∧
      (entryOf w options fn (some opts)).runner.opts = opts) ∧
    (∀ fn : JSFunction,
      entryOf w options fn none ∈
        (stored (add w options mapping name key fn none) name key).getD [] ∧
      (entryOf w options fn none).runner.fn = fn ∧
      (entryOf w options fn none).runner.opts.toVal = .obj []) := by
  refine ⟨?_, fun fn opts => ⟨entryOf_mem_add w options mapping name key fn (some opts),
    rfl, rfl⟩, fun fn => ⟨entryOf_mem_add w options mapping name key fn none, rfl, rfl⟩⟩
  rw [exec_eq]
  cases hreg : stored mapping name key with
  | none =>
    intro i h
    simp at h
  | some hs =>
    intro i h
    have := execLoop_turns w options args hs (creade mapping name).1
      (data.orDefault (.obj [])) i h
    refine ⟨this, ?_⟩
    have h2 := congrArg Step.args this
    simp only [turn, runnerArgs] at h2
    simpa using h2

theorem exec_handler_arguments_witness :
    (exec sampleWorld plainOptions
        (add sampleWorld plainOptions [] "map" "example" (plainFn 1) (some fooOpts))
        "map" "example" sampleData [.str "another", .str "arg", .str "lol"]).steps.map
      (fun s => s.args) =
      [[sampleData, .str "another", .str "arg", .str "lol",
        .obj [("priority", .num 12), ("foo", .str "bar")]]] ∧
    (entryOf sampleWorld plainOptions (plainFn 1) (some fooOpts)).runner.opts.toVal =
      .obj [("priority", .num 12), ("foo", .str "bar")] :=
  ⟨rfl, congrArg Opts.toVal
    ((exec_handler_arguments sampleWorld plainOptions [] "map" "example" sampleData
      []).2.1 (plainFn 1) fooOpts).2.2⟩

/-! ## `remove` with a handler -/

/-- C7: when `(name, key)` holds the array `keys`, after `remove(name, key, h)`
the entries under the key are exactly those of `keys` whose function is not
`h`, in the order they had: no entry of `h` is left, every other entry is
still there, and the key holds that array when it is not empty and is absent
otherwise. -/
theorem remove_handler_entries (mapping : Store) (name key : String) (h : JSFunction)
    (keys : List Entry) (hreg : stored mapping name key = some keys) :
    (stored (remove mapping name key (some h)) name key).getD [] =
      keys.filter (fun e => e.fn.ref != h.ref) ∧
    (∀ e ∈ (stored (remove mapping name key (some h)) name key).getD [], e.fn.ref ≠ h.ref) ∧
    (∀ e ∈ keys, e.fn.ref ≠ h.ref →
      e ∈ (stored (remove mapping name key (some h)) name key).getD []) ∧
    List.Sublist ((stored (remove mapping name key (some h)) name key).getD []) keys ∧
    (stored (remove mapping name key (some h)) name key =
      if (keys.filter (fun e => e.fn.ref != h.ref)).length ≠ 0 then
        some (keys.filter (fun e => e.fn.ref != h.ref))
      else none) := by
  have hst := stored_remove_self mapping name key (some h)
  rw [hreg] at hst
  simp only [] at hst
  have hget : (stored (remove mapping name key (some h)) name key).getD [] =
      keys.filter (fun e => e.fn.ref != h.ref) := by
    rw [hst]
    split
    · rfl
    · rename_i hlen
      simp only [ne_eq, Decidable.not_not] at hlen
      simp [List.length_eq_zero.1 hlen]
  refine ⟨hget, ?_, ?_, ?_, hst⟩
  · intro e he
    rw [hget] at he
    simpa using (List.mem_filter.1 he).2
  · intro e he hne
    rw [hget]
    exact List.mem_filter.2 ⟨he, by simpa using hne⟩
  · rw [hget]
    exact List.filter_sublist _

theorem remove_handler_entries_witness :
    stored sampleStore "map" "example" = some sampleChain ∧
    (stored (remove sampleStore "map" "example" (some (plainFn 4))) "map" "example").getD [] =
      sampleChain.filter (fun e => e.fn.ref != (plainFn 4).ref) ∧
    ((stored (remove sampleStore "map" "example" (some (plainFn 4))) "map" "example").getD []).map
      (fun e => e.fn.ref) = [1, 2] :=
  ⟨rfl, (remove_handler_entries sampleStore "map" "example" (plainFn 4) sampleChain rfl).1,
    by decide⟩

/-! ## No key with an empty array -/

theorem Dict.mem_set {α : Type} (d : Dict α) (key : String) (v : α) (x : String × α)
    (hx : x ∈ d.set key v) : x ∈ d ∨ x = (key, v) := by
  induction d with
  | nil =>
    simp only [Dict.set, List.mem_singleton] at hx
    exact Or.inr hx
  | cons p rest ih =>
    obtain ⟨k, y⟩ := p
    by_cases hk : k = key
    · subst hk
      simp only [Dict.set, if_true, List.mem_cons] at hx
      rcases hx with h | h
      · exact Or.inr h
      · exact Or.inl (List.mem_cons_of_mem _ h)
    · simp only [Dict.set, hk, if_false, List.mem_cons] at hx
      rcases hx with h | h
      · exact Or.inl (h ▸ List.mem_cons_self _ _)
      · rcases ih h with h2 | h2
        · exact Or.inl (List.mem_cons_of_mem _ h2)
        · exact Or.inr h2

theorem Dict.mem_delete {α : Type} (d : Dict α) (key : String) (x : String × α)
    (hx : x ∈ d.delete key) : x ∈ d := by
  induction d with
  | nil => simp [Dict.delete] at hx
  | cons p rest ih =>
    obtain ⟨k, y⟩ := p
    by_cases hk : k = key
    · simp only [Dict.delete, hk, if_true] at hx
      exact List.mem_cons_of_mem _ (ih hx)
    · simp only [Dict.delete, hk, if_false, List.mem_cons] at hx
      rcases hx with h | h
      · exact h ▸ List.mem_cons_self _ _
      · exact List.mem_cons_of_mem _ (ih h)

theorem Dict.mem_of_get {α : Type} (d : Dict α) (key : String) (v : α)
    (h : d.get key = some v) : (key, v) ∈ d := by
  induction d with
  | nil => simp [Dict.get] at h
  | cons p rest ih =>
    obtain ⟨k, y⟩ := p
    by_cases hk : k = key
    · simp only [Dict.get, hk, if_true, Option.some.injEq] at h
      rw [hk, h]
      exact List.mem_cons_self _ _
    · simp only [Dict.get, hk, if_false] at h
      exact List.mem_cons_of_mem _ (ih h)

theorem noEmptyList_creade (mapping : Store) (name : String) (h : NoEmptyList mapping) :
    NoEmptyList (creade mapping name).1 ∧ ∀ q ∈ (creade mapping name).2, q.2 ≠ [] := by
  unfold creade
  cases hm : mapping.get name with
  | some map => exact ⟨h, h _ (Dict.mem_of_get mapping name map hm)⟩
  | none =>
    refine ⟨?_, by simp⟩
    intro p hp
    rcases Dict.mem_set mapping name [] p hp with h2 | h2
    · exact h p h2
    · rw [h2]
      simp

theorem noEmptyList_set (mapping : Store) (name : String) (map : MapCollection)
    (h : NoEmptyList mapping) (hmap : ∀ q ∈ map, q.2 ≠ []) :
    NoEmptyList (mapping.set name map) := by
  intro p hp
  rcases Dict.mem_set mapping name map p hp with h2 | h2
  · exact h p h2
  · rw [h2]
    exact hmap

theorem noEmptyList_add (w : World) (options : Options) (mapping : Store)
    (name key : String) (fn : JSFunction) (opts? : Option Opts)
    (h : NoEmptyList mapping) : NoEmptyList (add w options mapping name key fn opts?) := by
  rw [add_eq]
  obtain ⟨h1, h2⟩ := noEmptyList_creade mapping name h
  refine noEmptyList_set _ _ _ h1 ?_
  intro q hq
  rcases Dict.mem_set _ _ _ q hq with h3 | h3
  · exact h2 q h3
  · rw [h3]
    intro hnil
    have := congrArg List.length hnil
    simp [arraySort, List.length_insertionSort] at this

theorem noEmptyList_remove (mapping : Store) (name key : String) (fn : Option JSFunction)
    (h : NoEmptyList mapping) : NoEmptyList (remove mapping name key fn) := by
  rw [remove_eq]
  obtain ⟨h1, h2⟩ := noEmptyList_creade mapping name h
  cases stored mapping name key with
  | none => exact h1
  | some keys =>
    simp only []
    split
    · rename_i hlen
      refine noEmptyList_set _ _ _ h1 ?_
      intro q hq
      rcases Dict.mem_set _ _ _ q hq with h3 | h3
      · exact h2 q h3
      · rw [h3]
        intro hnil
        exact hlen (congrArg List.length (show _ = [] from hnil))
    · exact noEmptyList_set _ _ _ h1 (fun q hq => h2 q (Dict.mem_delete _ _ q hq))

theorem noEmptyList_applyOps (w : World) (options : Options) (ops : List Op)
    (mapping : Store) (h : NoEmptyList mapping) :
    NoEmptyList (applyOps w options mapping ops) := by
  induction ops generalizing mapping with
  | nil => exact h
  | cons op ops ih =>
    refine ih _ ?_
    cases op with
    | add name key fn opts => exact noEmptyList_add w options mapping name key fn opts h
    | remove name key fn => exact noEmptyList_remove mapping name key fn h
    | exec name key => exact (noEmptyList_creade mapping name h).1

theorem noEmptyList_execLoop (w : World) (options : Options) (args : List JSVal)
    (hs : List Entry) (mapping : Store) (result : JSVal) (h : NoEmptyList mapping) :
    NoEmptyList (execLoop w options args hs mapping result).store := by
  induction hs generalizing mapping result with
  | nil => exact h
  | cons plugin rest ih =>
    rcases execLoop_cons w options args plugin rest mapping result with
      ⟨ops, _, heq⟩ | ⟨ops, cb2, e, e2, _, _, _, heq⟩ | ⟨ops, e, _, _, heq⟩
    · rw [heq]
      exact ih _ _ (noEmptyList_applyOps w options ops mapping h)
    · rw [heq]
      exact noEmptyList_applyOps w options ops mapping h
    · rw [heq]
      exact noEmptyList_applyOps w options ops mapping h

theorem noEmptyList_exec (w : World) (options : Options) (mapping : Store)
    (name key : String) (data : JSVal) (args : List JSVal) (h : NoEmptyList mapping) :
    NoEmptyList (exec w options mapping name key data args).store := by
  rw [exec_eq]
  cases stored mapping name key with
  | none => exact (noEmptyList_creade mapping name h).1
  | some keys =>
    show NoEmptyList (execLoop w options args keys _ _).store
    exact noEmptyList_execLoop w options args keys _ _ (noEmptyList_creade mapping name h).1

theorem noEmptyList_applyCalls (w : World) (options : Options) (calls : List Call)
    (mapping : Store) (h : NoEmptyList mapping) :
    NoEmptyList (applyCalls w options mapping calls) := by
  induction calls generalizing mapping with
  | nil => exact h
  | cons c calls ih =>
    refine ih _ ?_
    cases c with
    | add name key fn opts => exact noEmptyList_add w options mapping name key fn opts h
    | remove name key fn => exact noEmptyList_remove mapping name key fn h
    | exec name key data args => exact noEmptyList_exec w options mapping name key data args h

/-- C8: in every registry state reached from the empty registry by a sequence of
`add`, `remove` and `exec` calls, no key of any map is present with an empty
array; and when `remove` takes away the last entries of a key (every entry of
the key is registered with the removed function, or no function is given), the
map of `name` no longer has the key. -/
theorem no_key_with_empty_list (w : World) (options : Options) :
    (∀ calls : List Call, NoEmptyList (applyCalls w options [] calls)) ∧
    (∀ (mapping : Store) (name key : String) (fn : Option JSFunction) (keys : List Entry),
      stored mapping name key = some keys →
      (∀ h, fn = some h → ∀ e ∈ keys, e.fn.ref = h.ref) →
      ∃ map, (remove mapping name key fn).get name = some map ∧ map.has key = false) := by
  refine ⟨fun calls => noEmptyList_applyCalls w options calls [] (fun p hp => by cases hp), ?_⟩
  intro mapping name key fn keys hreg hall
  rw [remove_eq, hreg]
  have hrem : ¬ ((match fn with
      | some f => keys.filter (fun plugin : Entry => plugin.fn.ref != f.ref)
      | none => []).length ≠ 0) := by
    cases fn with
    | none => simp
    | some f =>
      simp only [ne_eq, Decidable.not_not, List.length_eq_zero, List.filter_eq_nil_iff]
      intro e he
      simp [hall f rfl e he]
  simp only []
  rw [if_neg hrem]
  exact ⟨_, Dict.get_set_self _ _ _, by simp [Dict.has, Dict.get_delete_self]⟩

theorem no_key_with_empty_list_witness :
    ((applyCalls sampleWorld plainOptions [] emptyingCalls).get "map").map
      (fun map => map.has "example") = some false ∧
    NoEmptyList (applyCalls sampleWorld plainOptions [] emptyingCalls) :=
  ⟨by decide, (no_key_with_empty_list sampleWorld plainOptions).1 emptyingCalls⟩

/-! ## The timeout of a runner -/

/-- C9: as stated the claim fails; with the explicit option `timeout: 0`, a non-null
value, and a handler whose `timeout` property is `50`, `add` hands `50` to the
duration parser, not the explicit `0`. -/
theorem timeout_zero_is_skipped :
    (stored (add sampleWorld plainOptions [] "map" "example" ⟨1, .num 50⟩ (withTimeout 0))
        "map" "example").map (fun l => l.map (fun e => e.runner.timeout)) =
      some [sampleMs (.num 50)] ∧
    timeoutSource (.num 0) (.num 50) .undefined = .num 50 ∧
    firstNonNull (.num 0) (.num 50) .undefined = .num 0 ∧
    timeoutSource (.num 0) (.num 50) .undefined ≠ firstNonNull (.num 0) (.num 50) .undefined :=
  ⟨rfl, rfl, rfl, fun h => by
    have h2 : (JSVal.num 50) = JSVal.num 0 := h
    injection h2 with h3
    omega⟩

/-- C9: as amended, the value `add` hands to the duration parser to obtain
`runner.timeout` is the first truthy one of the explicit option, the `timeout`
property of the handler and the registry wide option, in this order, and the
fallback `'20 seconds'` when all three are falsy; a truthy explicit option
overrides the lower levels. -/
theorem add_timeout_first_truthy (w : World) (options : Options) (mapping : Store)
    (name key : String) (fn : JSFunction) (opts? : Option Opts) :
    entryOf w options fn opts? ∈
      (stored (add w options mapping name key fn opts?) name key).getD [] ∧
    (entryOf w options fn opts?).runner.timeout =
      w.ms (timeoutSource (opts?.getD Opts.empty).timeout fn.timeout options.timeout) ∧
    (∀ t f o : JSVal, timeoutSource t f o =
      if t.truthy then t else if f.truthy then f else if o.truthy then o
      else .str "20 seconds") ∧
    (∀ t f o : JSVal, t.truthy = true → timeoutSource t f o = t) := by
  refine ⟨entryOf_mem_add w options mapping name key fn opts?, rfl, ?_, ?_⟩
  · intro t f o
    unfold timeoutSource JSVal.or
    by_cases ht : t.truthy = true <;> by_cases hf : f.truthy = true <;>
      by_cases ho : o.truthy = true <;> simp [ht, hf, ho]
  · intro t f o ht
    unfold timeoutSource JSVal.or
    by_cases hf : f.truthy = true <;> by_cases ho : o.truthy = true <;> simp [ht]

theorem add_timeout_first_truthy_witness :
    (entryOf sampleWorld plainOptions (plainFn 1) none).runner.timeout = .num 20000 ∧
    (entryOf sampleWorld plainOptions ⟨1, .str "2 seconds"⟩ none).runner.timeout = .num 2000 ∧
    (entryOf sampleWorld ⟨.undefined, .str "5 seconds", .undefined⟩
      (plainFn 1) none).runner.timeout = .num 5000 ∧
    (entryOf sampleWorld ⟨.undefined, .str "5 seconds", .undefined⟩
      ⟨1, .str "2 seconds"⟩ (withTimeout 1337)).runner.timeout = .num 1337 ∧
    timeoutSource (.num 1337) (.str "2 seconds") (.str "5 seconds") = .num 1337 :=
  ⟨rfl, rfl, rfl, rfl,
    (add_timeout_first_truthy sampleWorld plainOptions [] "map" "example" (plainFn 1)
      none).2.2.2 (.num 1337) (.str "2 seconds") (.str "5 seconds") rfl⟩

/-! ## `exec` on a key without handlers -/

theorem orDefault_of_ne_undefined (data dflt : JSVal) (h : data ≠ .undefined) :
    data.orDefault dflt = data := by
  cases data <;> first | rfl | exact absurd rfl h

/-- Where `creade` yields a `Map` and `(name, key)` has no stored array, `exec`
resolves to `data` unchanged, to the empty object when `data` is omitted
(`undefined`), and makes no turn: no handler is invoked and the error callback
is not called. -/
theorem exec_without_handlers (w : World) (options : Options) (mapping : Store)
    (name key : String) (data : JSVal) (args : List JSVal)
    (hnone : stored mapping name key = none) :
    (exec w options mapping name key data args).outcome =
      .fulfilled (data.orDefault (.obj [])) ∧
    (data ≠ .undefined →
      (exec w options mapping name key data args).outcome = .fulfilled data) ∧
    (exec w options mapping name key .undefined args).outcome = .fulfilled (.obj []) ∧
    (exec w options mapping name key data args).steps = [] ∧
    (exec w options mapping name key data args).reported = [] := by
  rw [exec_eq, exec_eq, hnone]
  refine ⟨rfl, fun h => ?_, rfl, rfl, rfl⟩
  show Settlement.fulfilled (data.orDefault (.obj [])) = _
  rw [orDefault_of_ne_undefined data _ h]

/-! ## `remove` without a handler, and the frame of `remove` -/

/-- C12: when `(name, key)` holds an array, whatever its entries, after
`remove(name, key)` without a function the key holds nothing: the map of `name`
no longer has the key. -/
theorem remove_all_entries (mapping : Store) (name key : String) (keys : List Entry)
    (hreg : stored mapping name key = some keys) :
    stored (remove mapping name key none) name key = none ∧
    ∃ map, (remove mapping name key none).get name = some map ∧ map.has key = false := by
  have hst := stored_remove_self mapping name key none
  rw [hreg] at hst
  refine ⟨hst, ?_⟩
  rw [remove_eq, hreg]
  exact ⟨_, Dict.get_set_self _ _ _, by simp [Dict.has, Dict.get_delete_self]⟩

theorem remove_all_entries_witness :
    stored twoKeyStore "map" "example" =
      some [entryOf sampleWorld plainOptions (plainFn 1) none,
            entryOf sampleWorld plainOptions (plainFn 2) none] ∧
    stored (remove twoKeyStore "map" "example" none) "map" "example" = none ∧
    ((remove twoKeyStore "map" "example" none).get "map").map
      (fun map => (map.has "example", map.has "different")) = some (false, true) :=
  ⟨rfl, (remove_all_entries twoKeyStore "map" "example" _ rfl).1, by decide⟩

/-- C13: `remove(name, key, fn)`, with or without a function, leaves the array
under every other key of the map of `name` and under every key of every other
map as it was (a key that held an array still holds the same array), and
leaves every other map as a whole as it was. -/
theorem remove_frame (mapping : Store) (name key : String) (fn : Option JSFunction) :
    (∀ name2 key2, ¬ (name2 = name ∧ key2 = key) →
      stored (remove mapping name key fn) name2 key2 = stored mapping name2 key2) ∧
    (∀ name2, name2 ≠ name →
      (remove mapping name key fn).get name2 = mapping.get name2) := by
  refine ⟨fun name2 key2 h => stored_remove_other mapping name key fn name2 key2 h, ?_⟩
  intro name2 hne
  have hne2 : name ≠ name2 := fun e => hne e.symm
  rw [remove_eq]
  cases stored mapping name key with
  | none => exact creade_fst_get_other mapping hne2
  | some keys =>
    simp only []
    split <;>
    · rw [Dict.get_set_other _ hne2]
      exact creade_fst_get_other mapping hne2

theorem remove_frame_witness :
    (stored (remove twoKeyStore "map" "example" (some (plainFn 1))) "map" "example").map
      (fun l => l.map (fun e => e.fn.ref)) = some [2] ∧
    stored (remove twoKeyStore "map" "example" (some (plainFn 1))) "map" "different" =
      stored twoKeyStore "map" "different" ∧
    stored twoKeyStore "map" "different" =
      some [entryOf sampleWorld plainOptions (plainFn 1) none] :=
  ⟨by decide,
    (remove_frame twoKeyStore "map" "example" (some (plainFn 1))).1 "map" "different"
      (by decide),
    rfl⟩

/-! ## `remove` and `exec` where nothing is stored -/

theorem Dict.set_of_get {α : Type} (d : Dict α) (key : String) (v : α)
    (h : d.get key = some v) : d.set key v = d := by
  induction d with
  | nil => simp [Dict.get] at h
  | cons p rest ih =>
    obtain ⟨k, x⟩ := p
    by_cases hk : k = key
    · simp only [Dict.get, hk, if_true, Option.some.injEq] at h
      simp [Dict.set, hk, h]
    · simp only [Dict.get, hk, if_false] at h
      simp [Dict.set, hk, ih h]

theorem Dict.delete_of_get_none {α : Type} (d : Dict α) (key : String)
    (h : d.get key = none) : d.delete key = d := by
  induction d with
  | nil => rfl
  | cons p rest ih =>
    obtain ⟨k, x⟩ := p
    by_cases hk : k = key
    · simp [Dict.get, hk] at h
    · simp only [Dict.get, hk, if_false] at h
      simp [Dict.delete, hk, ih h]

theorem Dict.delete_set_of_get_none {α : Type} (d : Dict α) (key : String) (v : α)
    (h : d.get key = none) : (d.set key v).delete key = d := by
  induction d with
  | nil => simp [Dict.set, Dict.delete]
  | cons p rest ih =>
    obtain ⟨k, x⟩ := p
    by_cases hk : k = key
    · simp [Dict.get, hk] at h
    · simp only [Dict.get, hk, if_false] at h
      simp [Dict.set, Dict.delete, hk, ih h]

theorem creade_fst_of_some (mapping : Store) (name : String) (map : MapCollection)
    (h : mapping.get name = some map) : (creade mapping name).1 = mapping := by
  unfold creade
  rw [h]

theorem creade_fst_of_none (mapping : Store) (name : String)
    (h : mapping.get name = none) : (creade mapping name).1 = mapping.set name [] := by
  unfold creade
  rw [h]

/-- C14: as stated the claim fails; on the empty registry `remove('map',
'example')` finds no array and returns, yet the store it leaves holds a new,
empty map under `'map'` and is not the store it started from. -/
theorem remove_creates_missing_map :
    stored ([] : Store) "map" "example" = none ∧
    Plain.remove ([] : Store) "map" "example" none = .ok [("map", [])] ∧
    remove ([] : Store) "map" "example" none = [("map", [])] ∧
    ([("map", [])] : Store) ≠ [] :=
  ⟨rfl, rfl, rfl, List.cons_ne_nil _ _⟩

/-- Where `creade` yields a `Map` and `(name, key)` has no stored array,
`remove(name, key, fn)` leaves every stored array as it was; the store itself is
unchanged when `name` already has a map, and has gained an empty map under
`name` (created by `creade`) when it had none. -/
theorem remove_without_list (mapping : Store) (name key : String) (fn : Option JSFunction)
    (hnone : stored mapping name key = none) :
    remove mapping name key fn = (creade mapping name).1 ∧
    (∀ map, mapping.get name = some map → remove mapping name key fn = mapping) ∧
    (mapping.get name = none → remove mapping name key fn = mapping.set name []) ∧
    (∀ name2 key2,
      stored (remove mapping name key fn) name2 key2 = stored mapping name2 key2) := by
  have h : remove mapping name key fn = (creade mapping name).1 := by
    rw [remove_eq, hnone]
  refine ⟨h, fun map hm => ?_, fun hm => ?_, fun name2 key2 => ?_⟩
  · rw [h, creade_fst_of_some mapping name map hm]
  · rw [h, creade_fst_of_none mapping name hm]
  · rw [h, stored_creade]

theorem execLoop_store_of_no_ops (w : World) (options : Options) (args : List JSVal)
    (hquiet : ∀ ref receiver callArgs, (w.call ref receiver callArgs).ops = [])
    (hs : List Entry) (mapping : Store) (result : JSVal) :
    (execLoop w options args hs mapping result).store = mapping := by
  induction hs generalizing result with
  | nil => rfl
  | cons plugin rest ih =>
    simp only [execLoop, hquiet, applyOps, List.foldl_nil]
    split
    · exact ih _
    · split
      · split
        · rfl
        · exact ih _
      · rfl

/-- C18: as stated the claim fails; on the empty registry
`exec('whatever', 'foo')` (the call of the test "always returns a object")
invokes no handler, yet the store it leaves holds a new, empty map under
`'whatever'`; and a handler that calls neither `add` nor `remove` but `exec`
on another name makes the store gain a map under that name. -/
theorem exec_creates_missing_map :
    (Plain.exec quietWorld plainOptions [] "whatever" "foo" .undefined []).steps = [] ∧
    (Plain.exec quietWorld plainOptions [] "whatever" "foo" .undefined []).store =
      [("whatever", [])] ∧
    (exec quietWorld plainOptions [] "whatever" "foo" .undefined []).store =
      [("whatever", [])] ∧
    ([("whatever", [])] : Store) ≠ [] ∧
    (sampleWorld.call 12 .undefined [sampleData, .obj []]).ops = [.exec "other" "x"] ∧
    ((Plain.exec sampleWorld plainOptions
        (add sampleWorld plainOptions [] "map" "example" (plainFn 12) none)
        "map" "example" sampleData []).store.get "other").isSome = true ∧
    ((add sampleWorld plainOptions [] "map" "example" (plainFn 12) none).get "other").isSome =
      false :=
  ⟨rfl, rfl, rfl, List.cons_ne_nil _ _, rfl, rfl, rfl⟩

/-- Where `creade` yields a `Map` and the user functions make no call of the
registry API, `exec` adds, removes and reorders no key and no array: every
stored array is as before, the store is unchanged when `name` already has a
map, and it has gained an empty map under `name` (created by `creade`) when it
had none. -/
theorem exec_store (w : World) (options : Options) (mapping : Store)
    (name key : String) (data : JSVal) (args : List JSVal)
    (hquiet : ∀ ref receiver callArgs, (w.call ref receiver callArgs).ops = []) :
    (exec w options mapping name key data args).store = (creade mapping name).1 ∧
    (∀ map, mapping.get name = some map →
      (exec w options mapping name key data args).store = mapping) ∧
    (mapping.get name = none →
      (exec w options mapping name key data args).store = mapping.set name []) ∧
    (∀ name2 key2,
      stored (exec w options mapping name key data args).store name2 key2 =
        stored mapping name2 key2) := by
  have h : (exec w options mapping name key data args).store = (creade mapping name).1 := by
    rw [exec_eq]
    cases stored mapping name key with
    | none => rfl
    | some keys => exact execLoop_store_of_no_ops w options args hquiet keys _ _
  refine ⟨h, fun map hm => ?_, fun hm => ?_, fun name2 key2 => ?_⟩
  · rw [h, creade_fst_of_some mapping name map hm]
  · rw [h, creade_fst_of_none mapping name hm]
  · rw [h, stored_creade]

/-! ## The first `add` of a key, and the frame of `add` -/

/-- Where `creade` yields a `Map` and `(name, key)` has no stored array,
`add(name, key, fn, opts)` leaves under the key an array of exactly one entry,
whose function is `fn` and whose priority is `opts.priority`, or `100` when no
priority (or no `opts`) is given; the map of `name` exists afterwards, and when
it did not exist before it is a new map that holds just this key. -/
theorem add_first_entry (w : World) (options : Options) (mapping : Store)
    (name key : String) (fn : JSFunction) (opts? : Option Opts)
    (hnone : stored mapping name key = none) :
    stored (add w options mapping name key fn opts?) name key =
      some [entryOf w options fn opts?] ∧
    (entryOf w options fn opts?).fn = fn ∧
    (entryOf w options fn opts?).priority =
      (match opts? with
        | some opts => opts.priority.getD 100
        | none => 100) ∧
    (mapping.get name = none →
      (add w options mapping name key fn opts?).get name =
        some [(key, [entryOf w options fn opts?])]) := by
  refine ⟨?_, rfl, ?_, ?_⟩
  · rw [stored_add_self, hnone]
    rfl
  · cases opts? <;> rfl
  · intro hm
    rw [add_eq, hnone, Dict.get_set_self, creade_snd, hm]
    rfl

/-- C19: `add(name, key, fn, opts)` leaves the array under every other key of
the map of `name` and under every key of every other map as it was, leaves
every other map as a whole as it was, and keeps every entry that was under
`(name, key)`: the new array is a permutation of the old entries and the new
one, each old entry as it was. -/
theorem add_frame (w : World) (options : Options) (mapping : Store)
    (name key : String) (fn : JSFunction) (opts? : Option Opts) :
    (∀ name2 key2, ¬ (name2 = name ∧ key2 = key) →
      stored (add w options mapping name key fn opts?) name2 key2 =
        stored mapping name2 key2) ∧
    (∀ name2, name2 ≠ name →
      (add w options mapping name key fn opts?).get name2 = mapping.get name2) ∧
    (∀ e ∈ (stored mapping name key).getD [],
      e ∈ (stored (add w options mapping name key fn opts?) name key).getD []) ∧
    ((stored (add w options mapping name key fn opts?) name key).getD []).Perm
      ((stored mapping name key).getD [] ++ [entryOf w options fn opts?]) := by
  have hperm : ((stored (add w options mapping name key fn opts?) name key).getD []).Perm
      ((stored mapping name key).getD [] ++ [entryOf w options fn opts?]) := by
    rw [stored_add_self, Option.getD_some]
    exact perm_arraySort _
  refine ⟨fun name2 key2 h => stored_add_other w options mapping name key fn opts? name2 key2 h,
    ?_, ?_, hperm⟩
  · intro name2 hne
    have hne2 : name ≠ name2 := fun e => hne e.symm
    rw [add_eq, Dict.get_set_other _ hne2]
    exact creade_fst_get_other mapping hne2
  · intro e he
    exact hperm.mem_iff.2 (List.mem_append_left _ he)

theorem add_frame_witness :
    stored (add sampleWorld plainOptions twoKeyStore "map" "example" (plainFn 4)
        (withPrio 150)) "map" "different" = stored twoKeyStore "map" "different" ∧
    (stored (add sampleWorld plainOptions twoKeyStore "map" "example" (plainFn 4)
        (withPrio 150)) "map" "example").map (fun l => l.map (fun e => e.fn.ref)) =
      some [4, 1, 2] :=
  ⟨(add_frame sampleWorld plainOptions twoKeyStore "map" "example" (plainFn 4)
      (withPrio 150)).1 "map" "different" (by decide),
    by decide⟩

/-! ## The re-sort of `add` as an ordered insert -/

theorem orderedInsert_of_forall (a : Entry) (l : List Entry)
    (h : ∀ b ∈ l, cmpLE sort a b) : List.orderedInsert (cmpLE sort) a l = a :: l := by
  cases l with
  | nil => rfl
  | cons b l =>
    have hb : cmpLE sort a b := h b (List.mem_cons_self _ _)
    simp [List.orderedInsert, hb]

theorem takeWhile_nil_of_forall_not {α : Type} (q : α → Bool) (l : List α)
    (h : ∀ x ∈ l, q x = false) : l.takeWhile q = [] ∧ l.dropWhile q = l := by
  cases l with
  | nil => exact ⟨rfl, rfl⟩
  | cons b l =>
    have hb := h b (List.mem_cons_self _ _)
    simp [List.takeWhile_cons, List.dropWhile_cons, hb]

theorem arraySort_concat (prev : List Entry) (e : Entry) (hdesc : Descending prev) :
    arraySort sort (prev ++ [e]) =
      prev.takeWhile (fun a => decide (a.priority ≥ e.priority)) ++
        e :: prev.dropWhile (fun a => decide (a.priority ≥ e.priority)) := by
  induction prev with
  | nil => rfl
  | cons a l ih =>
    have hdl : Descending l := (List.pairwise_cons.1 hdesc).2
    have hal : ∀ b ∈ l, a.priority ≥ b.priority := (List.pairwise_cons.1 hdesc).1
    have hstep : arraySort sort (a :: l ++ [e]) =
        List.orderedInsert (cmpLE sort) a (arraySort sort (l ++ [e])) := rfl
    rw [hstep, ih hdl]
    by_cases hq : a.priority ≥ e.priority
    · rw [orderedInsert_of_forall]
      · simp [List.takeWhile_cons, List.dropWhile_cons, hq]
      · intro b hb
        rw [cmpLE_sort_iff]
        rcases List.mem_append.1 hb with h | h
        · exact hal b ((List.takeWhile_sublist _).subset h)
        · rcases List.mem_cons.1 h with h | h
          · rw [h]
            exact hq
          · exact hal b ((List.dropWhile_sublist _).subset h)
    · have hall : ∀ x ∈ l, (fun a : Entry => decide (a.priority ≥ e.priority)) x = false := by
        intro x hx
        have := hal x hx
        simp only [decide_eq_false_iff_not]
        omega
      obtain ⟨htw, hdw⟩ := takeWhile_nil_of_forall_not _ l hall
      rw [htw, hdw]
      have hne : ¬ cmpLE sort a e := by
        rw [cmpLE_sort_iff]
        exact hq
      simp only [List.nil_append, List.orderedInsert, hne, if_false]
      rw [orderedInsert_of_forall a l (fun b hb => (cmpLE_sort_iff a b).2 (hal b hb))]
      simp [List.takeWhile_cons, List.dropWhile_cons, hq]

theorem dropWhile_lt_of_descending (p : Int) (l : List Entry) (hdesc : Descending l) :
    ∀ x ∈ l.dropWhile (fun a => decide (a.priority ≥ p)), x.priority < p := by
  induction l with
  | nil => simp
  | cons a l ih =>
    have hdl : Descending l := (List.pairwise_cons.1 hdesc).2
    have hal : ∀ b ∈ l, a.priority ≥ b.priority := (List.pairwise_cons.1 hdesc).1
    by_cases hq : a.priority ≥ p
    · simpa [List.dropWhile_cons, hq] using ih hdl
    · intro x hx
      simp only [List.dropWhile_cons, hq, decide_False, Bool.false_eq_true, if_false,
        List.mem_cons] at hx
      rcases hx with h | h
      · rw [h]
        omega
      · have := hal x h
        omega

theorem insertAfterLastGE_eq (prev : List Entry) (e : Entry) (hdesc : Descending prev) :
    insertAfterLastGE e prev =
      prev.takeWhile (fun a => decide (a.priority ≥ e.priority)) ++
        e :: prev.dropWhile (fun a => decide (a.priority ≥ e.priority)) := by
  have hsplit := List.takeWhile_append_dropWhile
    (fun a : Entry => decide (a.priority ≥ e.priority)) prev
  have hdw := dropWhile_lt_of_descending e.priority prev hdesc
  have htw : ∀ x ∈ prev.takeWhile (fun a => decide (a.priority ≥ e.priority)),
      ¬ x.priority < e.priority := by
    intro x hx
    have := List.mem_takeWhile_imp hx
    simp only [decide_eq_true_eq] at this
    omega
  generalize prev.takeWhile (fun a => decide (a.priority ≥ e.priority)) = front at hsplit htw ⊢
  generalize prev.dropWhile (fun a => decide (a.priority ≥ e.priority)) = back at hsplit hdw ⊢
  subst hsplit
  have hback : ∀ x ∈ back.reverse, (fun a : Entry => decide (a.priority < e.priority)) x = true := by
    intro x hx
    simpa using hdw x (List.mem_reverse.1 hx)
  have hfront : ∀ x ∈ front.reverse,
      (fun a : Entry => decide (a.priority < e.priority)) x = false := by
    intro x hx
    simpa using htw x (List.mem_reverse.1 hx)
  obtain ⟨h1, h2⟩ := takeWhile_nil_of_forall_not _ front.reverse hfront
  unfold insertAfterLastGE List.rdropWhile List.rtakeWhile
  rw [List.reverse_append, List.dropWhile_append_of_pos hback,
    List.takeWhile_append_of_pos hback, h1, h2]
  simp

/-- C17: for a list `prev` that is non-increasing in priority and a new entry
`e`, the array `add` stores, `prev.concat(e)` re-sorted by the stable sort, is
`prev` with `e` inserted immediately after the last entry whose priority is
greater than or equal to that of `e`; it is a permutation of `prev` with `e`,
one element longer than `prev`. -/
theorem resort_eq_ordered_insert (prev : List Entry) (e : Entry) (hdesc : Descending prev) :
    arraySort sort (prev ++ [e]) = insertAfterLastGE e prev ∧
    (insertAfterLastGE e prev).Perm (e :: prev) ∧
    (insertAfterLastGE e prev).length = prev.length + 1 ∧
    (∀ (w : World) (options : Options) (mapping : Store) (name key : String)
        (fn : JSFunction) (opts? : Option Opts),
      (stored mapping name key).getD [] = prev → entryOf w options fn opts? = e →
      stored (add w options mapping name key fn opts?) name key =
        some (insertAfterLastGE e prev)) := by
  have heq : arraySort sort (prev ++ [e]) = insertAfterLastGE e prev := by
    rw [arraySort_concat prev e hdesc, insertAfterLastGE_eq prev e hdesc]
  have hperm : (insertAfterLastGE e prev).Perm (e :: prev) := by
    rw [← heq]
    exact (perm_arraySort _).trans (List.perm_append_singleton e prev)
  refine ⟨heq, hperm, ?_, ?_⟩
  · simpa using hperm.length_eq
  · intro w options mapping name key fn opts? hprev he
    rw [stored_add_self, hprev, he, heq]

theorem resort_eq_ordered_insert_witness :
    Descending sampleChain ∧
    (insertAfterLastGE (entryOf sampleWorld plainOptions (plainFn 7) (withPrio 100))
      sampleChain).map (fun e => (e.priority, e.fn.ref)) =
      [(195, 1), (100, 4), (100, 7), (95, 2)] ∧
    arraySort sort
        (sampleChain ++ [entryOf sampleWorld plainOptions (plainFn 7) (withPrio 100)]) =
      insertAfterLastGE (entryOf sampleWorld plainOptions (plainFn 7) (withPrio 100))
        sampleChain :=
  ⟨by simp [Descending, sampleChain, entryOf, withPrio, Opts.empty], by decide,
    (resort_eq_ordered_insert sampleChain
      (entryOf sampleWorld plainOptions (plainFn 7) (withPrio 100))
      (by simp [Descending, sampleChain, entryOf, withPrio, Opts.empty])).1⟩

/-! ## `add` followed by `remove` -/

theorem Dict.set_set {α : Type} (d : Dict α) (key : String) (v v2 : α) :
    (d.set key v).set key v2 = d.set key v2 := by
  induction d with
  | nil => simp [Dict.set]
  | cons p rest ih =>
    obtain ⟨k, x⟩ := p
    by_cases hk : k = key
    · simp [Dict.set, hk]
    · simp [Dict.set, hk, ih]

theorem filter_arraySort_concat (prev : List Entry) (e : Entry) (h : JSFunction)
    (hdesc : Descending prev) (he : e.fn.ref = h.ref)
    (hfresh : ∀ x ∈ prev, x.fn.ref ≠ h.ref) :
    (arraySort sort (prev ++ [e])).filter (fun plugin => plugin.fn.ref != h.ref) = prev := by
  rw [arraySort_concat prev e hdesc, List.filter_append, List.filter_cons]
  have hdrop : (e.fn.ref != h.ref) = false := by
    simp [he]
  rw [hdrop]
  simp only [Bool.false_eq_true, if_false]
  rw [← List.filter_append, List.takeWhile_append_dropWhile]
  exact List.filter_eq_self.2 (fun x hx => by simpa using hfresh x hx)

/-- C20: as stated the claim fails; a registry whose map `'map'` holds the key
`'example'` with an empty array meets the conditions, yet after `add` and
`remove` of the same function the key is gone, and the store is not the one
it started from. -/
theorem add_remove_drops_empty_key :
    Dict.get ([("map", [("example", [])])] : Store) "map" = some [("example", [])] ∧
    Descending ((stored [("map", [("example", [])])] "map" "example").getD []) ∧
    remove (add sampleWorld plainOptions [("map", [("example", [])])] "map" "example"
        (plainFn 1) none) "map" "example" (some (plainFn 1)) = [("map", [])] ∧
    remove (add sampleWorld plainOptions [("map", [("example", [])])] "map" "example"
        (plainFn 1) none) "map" "example" (some (plainFn 1)) ≠
      [("map", [("example", [])])] :=
  ⟨rfl, List.Pairwise.nil, rfl, fun h => by
    have h2 : ([("map", [])] : Store) = [("map", [("example", [])])] := h
    simp at h2⟩

/-- C20: as amended, in a registry in which `name` already has a map, the key,
when present, holds a non-empty array that is non-increasing in priority, and
no entry under the key is registered with `h`, `add(name, key, h, opts)`
followed by `remove(name, key, h)` leaves the store it started from: the key
holds the same entries in the same order, or is absent again. -/
theorem add_remove_round_trip (w : World) (options : Options) (mapping : Store)
    (name key : String) (h : JSFunction) (opts? : Option Opts) (map : MapCollection)
    (hmap : mapping.get name = some map)
    (hdesc : Descending ((map.get key).getD []))
    (hfresh : ∀ e ∈ (map.get key).getD [], e.fn.ref ≠ h.ref)
    (hne : map.get key ≠ some []) :
    remove (add w options mapping name key h opts?) name key (some h) = mapping := by
  have hst : stored mapping name key = map.get key := by
    simp [stored, hmap]
  have hc1 : (creade mapping name).1 = mapping := creade_fst_of_some mapping name map hmap
  have hc2 : (creade mapping name).2 = map := by
    rw [creade_snd, hmap]
    rfl
  have hfilter := filter_arraySort_concat ((map.get key).getD []) (entryOf w options h opts?) h
    hdesc rfl hfresh
  have hadd : add w options mapping name key h opts? =
      mapping.set name (map.set key
        (arraySort sort ((map.get key).getD [] ++ [entryOf w options h opts?]))) := by
    rw [add_eq, hc1, hc2, hst]
  have hget : (add w options mapping name key h opts?).get name =
      some (map.set key
        (arraySort sort ((map.get key).getD [] ++ [entryOf w options h opts?]))) := by
    rw [hadd, Dict.get_set_self]
  rw [remove_eq, stored_add_self, hst]
  simp only []
  rw [hfilter, creade_fst_of_some _ name _ hget, creade_snd, hget, hadd]
  simp only [Option.getD_some, Dict.set_set]
  cases hk : map.get key with
  | none =>
    simp only [Option.getD_none, List.length_nil, ne_eq, not_true_eq_false, if_false]
    rw [Dict.delete_set_of_get_none map key _ hk]
    exact Dict.set_of_get mapping name map hmap
  | some prev =>
    have hprev : prev.length ≠ 0 := by
      intro h0
      exact hne (by rw [hk, List.length_eq_zero.1 h0])
    simp only [Option.getD_some, hprev, ne_eq, not_false_eq_true, if_true]
    rw [Dict.set_of_get map key prev hk]
    exact Dict.set_of_get mapping name map hmap

theorem add_remove_round_trip_witness :
    sampleStore.get "map" = some [("example", sampleChain)] ∧
    remove (add sampleWorld plainOptions sampleStore "map" "example" (plainFn 7)
        (withPrio 100)) "map" "example" (some (plainFn 7)) = sampleStore ∧
    remove (add sampleWorld plainOptions sampleStore "map" "fresh" (plainFn 7) none)
        "map" "fresh" (some (plainFn 7)) = sampleStore :=
  ⟨rfl,
    add_remove_round_trip sampleWorld plainOptions sampleStore "map" "example" (plainFn 7)
      (withPrio 100) [("example", sampleChain)] rfl
      (by simp [Descending, Dict.get, sampleChain, entryOf, withPrio, Opts.empty])
      (by simp [Dict.get, sampleChain, entryOf, plainFn])
      (by simp [Dict.get, sampleChain]),
    add_remove_round_trip sampleWorld plainOptions sampleStore "map" "fresh" (plainFn 7)
      none [("example", sampleChain)] rfl
      (by simp [Descending, Dict.get])
      (by simp [Dict.get])
      (by simp [Dict.get])⟩

/-! ## The array `exec` iterates over -/

namespace Heap

theorem extends_refl (m : Mem) : Extends m m := ⟨[], by simp⟩

theorem extends_trans {m1 m2 m3 : Mem} (h12 : Extends m1 m2) (h23 : Extends m2 m3) :
    Extends m1 m3 := by
  obtain ⟨a, ha⟩ := h12
  obtain ⟨b, hb⟩ := h23
  exact ⟨a ++ b, by rw [hb, ha, List.append_assoc]⟩

theorem read_of_extends {m1 m2 : Mem} (h : Extends m1 m2) {addr : Nat}
    (haddr : addr < m1.arrays.length) : m2.read addr = m1.read addr := by
  obtain ⟨more, hmore⟩ := h
  simp only [Mem.read, List.getD_eq_getElem?_getD, hmore, List.getElem?_append_left haddr]

theorem length_le_of_extends {m1 m2 : Mem} (h : Extends m1 m2) :
    m1.arrays.length ≤ m2.arrays.length := by
  obtain ⟨more, hmore⟩ := h
  simp [hmore]

theorem heap_creade_arrays (m : Mem) (name : String) :
    (creade m name).1.arrays = m.arrays := by
  unfold creade
  cases m.mapping.get name <;> rfl

theorem read_alloc (m : Mem) (a : List Entry) :
    (m.alloc a).1.read (m.alloc a).2 = a := by
  simp [Mem.alloc, Mem.read]

theorem write_alloc (m : Mem) (a b : List Entry) :
    ((m.alloc a).1.write (m.alloc a).2 b).arrays = m.arrays ++ [b] := by
  simp [Mem.alloc, Mem.write]

theorem alloc_arrays (m : Mem) (a : List Entry) : (m.alloc a).1.arrays = m.arrays ++ [a] := rfl

theorem heap_add_arrays (w : World) (options : Options) (m : Mem)
    (name key : String) (fn : JSFunction) (opts? : Option Opts) :
    (add w options m name key fn opts?).arrays =
      match (creade m name).2.get key with
      | some addr =>
        m.arrays ++ [arraySort sort ((creade m name).1.read addr ++ [entryOf w options fn opts?])]
      | none => m.arrays ++ [[], arraySort sort [entryOf w options fn opts?]] := by
  have hc := heap_creade_arrays m name
  unfold add
  simp only []
  cases (creade m name).2.get key with
  | some addr =>
    simp only []
    rw [read_alloc, write_alloc, hc]
    rfl
  | none =>
    simp only []
    rw [read_alloc, write_alloc, read_alloc, alloc_arrays, hc, List.append_assoc]
    rfl

theorem heap_add_extends (w : World) (options : Options) (m : Mem)
    (name key : String) (fn : JSFunction) (opts? : Option Opts) :
    Extends m (add w options m name key fn opts?) := by
  unfold Extends
  rw [heap_add_arrays]
  cases (creade m name).2.get key with
  | some addr => exact ⟨_, rfl⟩
  | none => exact ⟨_, rfl⟩

theorem heap_remove_arrays (m : Mem) (name key : String) (fn : Option JSFunction) :
    (remove m name key fn).arrays =
      match (creade m name).2.get key with
      | none => m.arrays
      | some keys =>
        m.arrays ++ [match fn with
          | some f => ((creade m name).1.read keys).filter (fun plugin => plugin.fn.ref != f.ref)
          | none => []] := by
  have hc := heap_creade_arrays m name
  unfold remove
  simp only []
  cases (creade m name).2.get key with
  | none => exact hc
  | some keys =>
    cases fn with
    | none =>
      simp only []
      split <;> simp only [alloc_arrays, hc]
    | some f =>
      simp only []
      split <;> simp only [alloc_arrays, hc]

theorem heap_remove_extends (m : Mem) (name key : String) (fn : Option JSFunction) :
    Extends m (remove m name key fn) := by
  unfold Extends
  rw [heap_remove_arrays]
  cases (creade m name).2.get key with
  | none => exact ⟨[], by simp⟩
  | some keys => exact ⟨_, rfl⟩

theorem heap_applyOps_extends (w : World) (options : Options) (ops : List Op) (m : Mem) :
    Extends m (applyOps w options m ops) := by
  induction ops generalizing m with
  | nil => exact extends_refl m
  | cons op ops ih =>
    refine extends_trans ?_ (ih _)
    cases op with
    | add name key fn opts => exact heap_add_extends w options m name key fn opts
    | remove name key fn => exact heap_remove_extends m name key fn
    | exec name key =>
      exact ⟨[], by rw [List.append_nil]; exact heap_creade_arrays m name⟩

theorem heap_execLoop_snapshot (w : World) (options : Options) (args : List JSVal)
    (keys : Nat) (m0 : Mem) (hvalid : keys < m0.arrays.length)
    (fuel i : Nat) (m : Mem) (result : JSVal)
    (hext : Extends m0 m) (hi : i ≤ (m0.read keys).length)
    (hfuel : (m0.read keys).length - i < fuel) :
    ∃ r, execLoop w options args keys fuel i m result = some r ∧
      r.steps.map (fun s => s.entry) = ((m0.read keys).drop i).take r.steps.length ∧
      ((∃ v, r.outcome = .fulfilled v) →
        r.steps.map (fun s => s.entry) = (m0.read keys).drop i) ∧
      Extends m0 r.mem := by
  induction fuel generalizing i m result with
  | zero => omega
  | succ fuel ih =>
    have hread : m.read keys = m0.read keys := read_of_extends hext hvalid
    rw [execLoop, hread]
    cases hget : (m0.read keys)[i]? with
    | none =>
      have hlen : (m0.read keys).length ≤ i := List.getElem?_eq_none_iff.1 hget
      exact ⟨_, rfl, by simp, fun _ => by simp [List.drop_eq_nil_of_le hlen], hext⟩
    | some plugin =>
      obtain ⟨hlt, hplugin⟩ := List.getElem?_eq_some_iff.1 hget
      have hdrop : (m0.read keys).drop i = plugin :: (m0.read keys).drop (i + 1) := by
        rw [List.drop_eq_getElem_cons hlt, hplugin]
      have hext1 : Extends m0 (applyOps w options m
          (w.call plugin.runner.fn.ref options.context
            (runnerArgs plugin.runner result args)).ops) :=
        extends_trans hext (heap_applyOps_extends w options _ m)
      simp only []
      cases hout : attempt w plugin.runner
          (w.call plugin.runner.fn.ref options.context
            (runnerArgs plugin.runner result args)) with
      | fulfilled v =>
        obtain ⟨r, hr, hsteps, hfull, hextr⟩ :=
          ih (i + 1) _ (v.or result) hext1 (by omega) (by omega)
        simp only [hr]
        refine ⟨_, rfl, ?_, fun hv => ?_, hextr⟩
        · simp only [List.map_cons, hsteps, hdrop, List.length_cons, List.take_succ_cons]
        · simp only [List.map_cons, hfull hv, hdrop]
      | rejected e =>
        simp only []
        cases herr : options.error with
        | func cb =>
          simp only []
          have hext2 : Extends m0 (applyOps w options (applyOps w options m
              (w.call plugin.runner.fn.ref options.context
                (runnerArgs plugin.runner result args)).ops)
              (w.call cb options.toVal [e]).ops) :=
            extends_trans hext1 (heap_applyOps_extends w options _ _)
          cases hcb : (w.call cb options.toVal [e]).completion with
          | throws e2 =>
            refine ⟨_, rfl, ?_, fun hv => ?_, hext2⟩
            · simp [hdrop]
            · obtain ⟨v, hv⟩ := hv
              cases hv
          | returns pd =>
            obtain ⟨r, hr, hsteps, hfull, hextr⟩ :=
              ih (i + 1) _ result hext2 (by omega) (by omega)
            simp only [hr]
            refine ⟨_, rfl, ?_, fun hv => ?_, hextr⟩
            · simp only [List.map_cons, hsteps, hdrop, List.length_cons, List.take_succ_cons]
            · simp only [List.map_cons, hfull hv, hdrop]
        | undefined | null | bool _ | num _ | nan | str _ | obj _ =>
          refine ⟨_, rfl, ?_, fun hv => ?_, hext1⟩
          · simp [hdrop]
          · obtain ⟨v, hv⟩ := hv
            cases hv

theorem heap_creade_of_some (m : Mem) (name : String) (map : Dict Nat)
    (h : m.mapping.get name = some map) : creade m name = (m, map) := by
  unfold creade
  rw [h]

/-- C16: `exec` iterates over the array object that is stored under `(name,
key)` when it starts, with the contents that array has at that moment.  For
any behaviour of the user functions, calls of `add` and `remove` made while
the loop runs included, the loop ends, the entries it invokes are an initial
segment of those contents, in their order, and all of them when the promise is
fulfilled.  The reason is that no array that exists is ever written to: `add`
and `remove` (and so a whole `exec`) leave the contents of every existing
array as they were and store a new array, which only a later `exec` reads. -/
theorem exec_iterates_snapshot (w : World) (options : Options) (m : Mem)
    (name key : String) (data : JSVal) (args : List JSVal) (keys fuel : Nat)
    (haddr : address m name key = some keys) (hvalid : keys < m.arrays.length)
    (hfuel : (m.read keys).length < fuel) :
    ∃ r, exec w options m name key data args fuel = some r ∧
      r.steps.map (fun s => s.entry) = (m.read keys).take r.steps.length ∧
      ((∃ v, r.outcome = .fulfilled v) → r.steps.map (fun s => s.entry) = m.read keys) ∧
      (∀ addr, addr < m.arrays.length → r.mem.read addr = m.read addr) ∧
      (∀ (m2 : Mem) (n k : String) (fn : JSFunction) (o : Option Opts) (addr : Nat),
        addr < m2.arrays.length → (add w options m2 n k fn o).read addr = m2.read addr) ∧
      (∀ (m2 : Mem) (n k : String) (fn : Option JSFunction) (addr : Nat),
        addr < m2.arrays.length → (remove m2 n k fn).read addr = m2.read addr) := by
  unfold address at haddr
  cases hmap : m.mapping.get name with
  | none => simp [hmap] at haddr
  | some map =>
    rw [hmap] at haddr
    have hkeys : map.get key = some keys := haddr
    obtain ⟨r, hr, hsteps, hfull, hext⟩ := heap_execLoop_snapshot w options args keys m hvalid
      fuel 0 m (data.orDefault (.obj [])) (extends_refl m) (Nat.zero_le _) (by omega)
    refine ⟨r, ?_, by simpa using hsteps, by simpa using hfull,
      fun addr h => read_of_extends hext h,
      fun m2 n k fn o addr h => read_of_extends (heap_add_extends w options m2 n k fn o) h,
      fun m2 n k fn addr h => read_of_extends (heap_remove_extends m2 n k fn) h⟩
    unfold exec
    rw [heap_creade_of_some m name map hmap]
    simp only [hkeys]
    exact hr

theorem exec_iterates_snapshot_witness :
    address sampleMem "map" "example" = some 2 ∧
    (sampleMem.read 2).map (fun e => e.fn.ref) = [9, 2] ∧
    (exec sampleWorld plainOptions sampleMem "map" "example" sampleData [] 3).map
      (fun r => (r.steps.map (fun s => s.entry.fn.ref), address r.mem "map" "example")) =
      some ([9, 2], some 3) ∧
    ((exec sampleWorld plainOptions sampleMem "map" "example" sampleData [] 3).bind
      (fun r => exec sampleWorld plainOptions r.mem "map" "example" sampleData [] 3)).map
      (fun r => r.steps.map (fun s => s.entry.fn.ref)) = some [9] ∧
    ∃ r, exec sampleWorld plainOptions sampleMem "map" "example" sampleData [] 3 = some r ∧
      r.steps.map (fun s => s.entry) = (sampleMem.read 2).take r.steps.length :=
  ⟨by decide, by decide, by decide, by decide,
    (exec_iterates_snapshot sampleWorld plainOptions sampleMem "map" "example" sampleData []
      2 3 (by decide) (by decide) (by decide)).imp (fun _ h => ⟨h.1, h.2.1⟩)⟩

/-! ## The two levels agree -/

theorem get_map_val {α β : Type} (f : α → β) (d : Dict α) (key : String) :
    Dict.get (d.map (fun p => (p.1, f p.2))) key = (Dict.get d key).map f := by
  induction d with
  | nil => rfl
  | cons p rest ih =>
    obtain ⟨k, x⟩ := p
    by_cases hk : k = key
    · simp [Dict.get, hk]
    · simp only [List.map_cons, Dict.get, hk, if_false]
      exact ih

theorem set_map_val {α β : Type} (f : α → β) (d : Dict α) (key : String) (v : α) :
    Dict.set (d.map (fun p => (p.1, f p.2))) key (f v) =
      (Dict.set d key v).map (fun p => (p.1, f p.2)) := by
  induction d with
  | nil => rfl
  | cons p rest ih =>
    obtain ⟨k, x⟩ := p
    by_cases hk : k = key
    · simp [Dict.set, hk]
    · simp only [List.map_cons, Dict.set, hk, if_false]
      rw [ih]

theorem delete_map_val {α β : Type} (f : α → β) (d : Dict α) (key : String) :
    Dict.delete (d.map (fun p => (p.1, f p.2))) key =
      (Dict.delete d key).map (fun p => (p.1, f p.2)) := by
  induction d with
  | nil => rfl
  | cons p rest ih =>
    obtain ⟨k, x⟩ := p
    by_cases hk : k = key
    · simp only [List.map_cons, Dict.delete, hk, if_true]
      exact ih
    · simp only [List.map_cons, Dict.delete, hk, if_false]
      rw [ih]

theorem map_val_congr {α β : Type} (f g : α → β) (d : Dict α)
    (h : ∀ p ∈ d, f p.2 = g p.2) :
    d.map (fun p => (p.1, f p.2)) = d.map (fun p => (p.1, g p.2)) :=
  List.map_congr_left (fun p hp => by rw [h p hp])

theorem deref_congr (m1 m2 : Mem) (map : Dict Nat) (hext : Extends m1 m2)
    (hvalid : ∀ q ∈ map, q.2 < m1.arrays.length) : deref m2 map = deref m1 map :=
  map_val_congr m2.read m1.read map (fun q hq => read_of_extends hext (hvalid q hq))

theorem toStore_congr (m1 m2 : Mem) (hext : Extends m1 m2) (hwf : WellFormed m1)
    (hmapping : m2.mapping = m1.mapping) : toStore m2 = toStore m1 := by
  unfold toStore
  rw [hmapping]
  exact map_val_congr (deref m2) (deref m1) m1.mapping
    (fun p hp => deref_congr m1 m2 p.2 hext (hwf p hp))

theorem heap_creade_wf (m : Mem) (name : String) (hwf : WellFormed m) :
    WellFormed (creade m name).1 ∧ ∀ q ∈ (creade m name).2, q.2 < m.arrays.length := by
  unfold creade
  cases hm : m.mapping.get name with
  | some map => exact ⟨hwf, hwf _ (Dict.mem_of_get m.mapping name map hm)⟩
  | none =>
    refine ⟨?_, by simp⟩
    intro p hp
    rcases Dict.mem_set m.mapping name [] p hp with h | h
    · exact hwf p h
    · rw [h]
      simp

theorem toStore_creade (m : Mem) (name : String) :
    toStore (creade m name).1 = (Shrubbery.creade (toStore m) name).1 ∧
    deref m (creade m name).2 = (Shrubbery.creade (toStore m) name).2 := by
  have hget : Dict.get (toStore m) name = (m.mapping.get name).map (deref m) :=
    get_map_val (deref m) m.mapping name
  unfold creade Shrubbery.creade
  rw [hget]
  cases hm : m.mapping.get name with
  | some map => exact ⟨rfl, rfl⟩
  | none =>
    refine ⟨?_, rfl⟩
    exact (set_map_val (deref m) m.mapping name []).symm

theorem heap_creade_mapping_get (m : Mem) (name : String) :
    (creade m name).1.mapping.get name = some (creade m name).2 := by
  unfold creade
  cases hm : m.mapping.get name with
  | some map => exact hm
  | none => exact Dict.get_set_self _ _ _

theorem deref_creade (m : Mem) (name : String) (map : Dict Nat) :
    deref (creade m name).1 map = deref m map := by
  unfold creade
  cases m.mapping.get name <;> rfl

theorem read_creade (m : Mem) (name : String) (addr : Nat) :
    (creade m name).1.read addr = m.read addr := by
  unfold creade
  cases m.mapping.get name <;> rfl

theorem stored_toStore (m : Mem) (name key : String) :
    stored (toStore m) name key = ((creade m name).2.get key).map m.read := by
  rw [← creade_snd_get, ← (toStore_creade m name).2]
  exact get_map_val m.read (creade m name).2 key

theorem heap_add_mapping (w : World) (options : Options) (m : Mem)
    (name key : String) (fn : JSFunction) (opts? : Option Opts) :
    (add w options m name key fn opts?).mapping =
      (creade m name).1.mapping.set name ((creade m name).2.set key
        (match (creade m name).2.get key with
          | some _ => m.arrays.length
          | none => m.arrays.length + 1)) := by
  have hc := heap_creade_arrays m name
  unfold add
  simp only []
  cases (creade m name).2.get key with
  | some addr => simp only [Mem.alloc, Mem.write, hc]
  | none => simp only [Mem.alloc, Mem.write, hc, List.length_append, List.length_singleton]

theorem read_append_length (arrays : List (List Entry)) (mapping : Dict (Dict Nat))
    (a : List Entry) (more : List (List Entry)) :
    (⟨arrays ++ a :: more, mapping⟩ : Mem).read arrays.length = a := by
  simp only [Mem.read, List.getD_eq_getElem?_getD, List.getElem?_append_right (Nat.le_refl _),
    Nat.sub_self, List.getElem?_cons_zero, Option.getD_some]

theorem toStore_of_set (m2 m1 : Mem) (name key : String) (map : Dict Nat) (fresh : Nat)
    (base : Dict (Dict Nat))
    (hext : Extends m1 m2) (hbase : ∀ p ∈ base, ∀ q ∈ p.2, q.2 < m1.arrays.length)
    (hmap : ∀ q ∈ map, q.2 < m1.arrays.length)
    (hmapping : m2.mapping = base.set name (map.set key fresh)) :
    toStore m2 =
      Dict.set (base.map (fun p => (p.1, deref m1 p.2))) name
        (Dict.set (deref m1 map) key (m2.read fresh)) := by
  unfold toStore
  rw [hmapping, ← set_map_val (deref m2) base name]
  have h1 : base.map (fun p => (p.1, deref m2 p.2)) = base.map (fun p => (p.1, deref m1 p.2)) :=
    map_val_congr (deref m2) (deref m1) base
      (fun p hp => deref_congr m1 m2 p.2 hext (hbase p hp))
  have h2 : deref m2 (map.set key fresh) = Dict.set (deref m1 map) key (m2.read fresh) := by
    unfold deref
    rw [← set_map_val m2.read map key fresh]
    exact congrArg (fun d => Dict.set d key (m2.read fresh)) (deref_congr m1 m2 map hext hmap)
  rw [h1, h2]

theorem toStore_add (w : World) (options : Options) (m : Mem)
    (name key : String) (fn : JSFunction) (opts? : Option Opts) (hwf : WellFormed m) :
    toStore (add w options m name key fn opts?) =
      Shrubbery.add w options (toStore m) name key fn opts? := by
  obtain ⟨hwfc, hmapc⟩ := heap_creade_wf m name hwf
  obtain ⟨hs1, hs2⟩ := toStore_creade m name
  have hc := heap_creade_arrays m name
  have hext := heap_add_extends w options m name key fn opts?
  have harr := heap_add_arrays w options m name key fn opts?
  have hmp := heap_add_mapping w options m name key fn opts?
  have hbase : ∀ p ∈ (creade m name).1.mapping, ∀ q ∈ p.2, q.2 < m.arrays.length := by
    intro p hp q hq
    have := hwfc p hp q hq
    rwa [hc] at this
  rw [toStore_of_set _ m name key _ _ _ hext hbase hmapc hmp, add_eq, ← hs1, ← hs2,
    stored_toStore]
  have hbase2 : (creade m name).1.mapping.map (fun p => (p.1, deref m p.2)) =
      toStore (creade m name).1 := by
    unfold toStore
    exact map_val_congr _ _ _ (fun p _ => (deref_creade m name p.2).symm)
  rw [hbase2]
  congr 2
  cases hk : (creade m name).2.get key with
  | some addr =>
    rw [hk] at harr
    simp only [] at harr ⊢
    have : add w options m name key fn opts? =
        ⟨m.arrays ++ [arraySort sort ((creade m name).1.read addr ++
          [entryOf w options fn opts?])], (add w options m name key fn opts?).mapping⟩ := by
      rw [← harr]
    rw [this, read_append_length, read_creade]
    rfl
  | none =>
    rw [hk] at harr
    simp only [] at harr ⊢
    have : add w options m name key fn opts? =
        ⟨(m.arrays ++ [[]]) ++ [arraySort sort [entryOf w options fn opts?]],
          (add w options m name key fn opts?).mapping⟩ := by
      have h2 : m.arrays ++ [[], arraySort sort [entryOf w options fn opts?]] =
          (m.arrays ++ [[]]) ++ [arraySort sort [entryOf w options fn opts?]] := by simp
      rw [← h2, ← harr]
    rw [this]
    have hlen : m.arrays.length + 1 = (m.arrays ++ [[]]).length := by simp
    rw [hlen, read_append_length]
    rfl

theorem heap_add_wf (w : World) (options : Options) (m : Mem)
    (name key : String) (fn : JSFunction) (opts? : Option Opts) (hwf : WellFormed m) :
    WellFormed (add w options m name key fn opts?) := by
  obtain ⟨hwfc, hmapc⟩ := heap_creade_wf m name hwf
  have hc := heap_creade_arrays m name
  have hle := length_le_of_extends (heap_add_extends w options m name key fn opts?)
  have harr := heap_add_arrays w options m name key fn opts?
  intro p hp q hq
  rw [heap_add_mapping] at hp
  rcases Dict.mem_set _ _ _ p hp with h | h
  · have := hwfc p h q hq
    rw [hc] at this
    omega
  · rw [h] at hq
    rcases Dict.mem_set _ _ _ q hq with h2 | h2
    · have := hmapc q h2
      omega
    · rw [h2, harr]
      cases (creade m name).2.get key <;> simp

/-- The array `remove` allocates for what is left under the key. -/
theorem heap_remove_eq (m : Mem) (name key : String) (fn : Option JSFunction) :
    remove m name key fn =
      match (creade m name).2.get key with
      | none => (creade m name).1
      | some keys =>
        if (match fn with
            | some f => (m.read keys).filter (fun plugin : Entry => plugin.fn.ref != f.ref)
            | none => []).length ≠ 0 then
          ⟨m.arrays ++ [match fn with
              | some f => (m.read keys).filter (fun plugin : Entry => plugin.fn.ref != f.ref)
              | none => []],
            (creade m name).1.mapping.set name ((creade m name).2.set key m.arrays.length)⟩
        else
          ⟨m.arrays ++ [match fn with
              | some f => (m.read keys).filter (fun plugin : Entry => plugin.fn.ref != f.ref)
              | none => []],
            (creade m name).1.mapping.set name ((creade m name).2.delete key)⟩ := by
  have hc := heap_creade_arrays m name
  unfold remove
  simp only []
  cases (creade m name).2.get key with
  | none => rfl
  | some keys =>
    cases fn with
    | none =>
      simp only [read_alloc, alloc_arrays, hc]
      rfl
    | some f =>
      simp only [read_alloc, alloc_arrays, read_creade]
      simp only [Mem.alloc, hc]

theorem toStore_of_delete (m2 m1 : Mem) (name key : String) (map : Dict Nat)
    (base : Dict (Dict Nat))
    (hext : Extends m1 m2) (hbase : ∀ p ∈ base, ∀ q ∈ p.2, q.2 < m1.arrays.length)
    (hmap : ∀ q ∈ map, q.2 < m1.arrays.length)
    (hmapping : m2.mapping = base.set name (map.delete key)) :
    toStore m2 =
      Dict.set (base.map (fun p => (p.1, deref m1 p.2))) name
        (Dict.delete (deref m1 map) key) := by
  unfold toStore
  rw [hmapping, ← set_map_val (deref m2) base name]
  have h1 : base.map (fun p => (p.1, deref m2 p.2)) = base.map (fun p => (p.1, deref m1 p.2)) :=
    map_val_congr (deref m2) (deref m1) base
      (fun p hp => deref_congr m1 m2 p.2 hext (hbase p hp))
  have h2 : deref m2 (map.delete key) = Dict.delete (deref m1 map) key := by
    unfold deref
    rw [← delete_map_val m2.read map key]
    exact congrArg (fun d => Dict.delete d key) (deref_congr m1 m2 map hext hmap)
  rw [h1, h2]

theorem toStore_remove (m : Mem) (name key : String) (fn : Option JSFunction)
    (hwf : WellFormed m) :
    toStore (remove m name key fn) = Shrubbery.remove (toStore m) name key fn := by
  obtain ⟨hwfc, hmapc⟩ := heap_creade_wf m name hwf
  obtain ⟨hs1, hs2⟩ := toStore_creade m name
  have hc := heap_creade_arrays m name
  have hbase : ∀ p ∈ (creade m name).1.mapping, ∀ q ∈ p.2, q.2 < m.arrays.length := by
    intro p hp q hq
    have := hwfc p hp q hq
    rwa [hc] at this
  have hbase2 : (creade m name).1.mapping.map (fun p => (p.1, deref m p.2)) =
      toStore (creade m name).1 := by
    unfold toStore
    exact map_val_congr _ _ _ (fun p _ => (deref_creade m name p.2).symm)
  rw [heap_remove_eq, remove_eq, stored_toStore, ← hs1, ← hs2]
  cases hk : (creade m name).2.get key with
  | none => rfl
  | some keys =>
    simp only [Option.map_some']
    split
    · rw [toStore_of_set _ m name key (creade m name).2 m.arrays.length
        (creade m name).1.mapping ⟨_, rfl⟩ hbase hmapc rfl, hbase2, read_append_length]
    · rw [toStore_of_delete _ m name key (creade m name).2
        (creade m name).1.mapping ⟨_, rfl⟩ hbase hmapc rfl, hbase2]

theorem heap_remove_wf (m : Mem) (name key : String) (fn : Option JSFunction)
    (hwf : WellFormed m) : WellFormed (remove m name key fn) := by
  obtain ⟨hwfc, hmapc⟩ := heap_creade_wf m name hwf
  have hc := heap_creade_arrays m name
  rw [heap_remove_eq]
  cases (creade m name).2.get key with
  | none => exact hwfc
  | some keys =>
    simp only []
    split
    · intro p hp q hq
      simp only [List.length_append, List.length_singleton]
      rcases Dict.mem_set _ _ _ p hp with h | h
      · have := hwfc p h q hq
        rw [hc] at this
        omega
      · rw [h] at hq
        rcases Dict.mem_set _ _ _ q hq with h2 | h2
        · have := hmapc q h2
          omega
        · rw [h2]
          simp
    · intro p hp q hq
      simp only [List.length_append, List.length_singleton]
      rcases Dict.mem_set _ _ _ p hp with h | h
      · have := hwfc p h q hq
        rw [hc] at this
        omega
      · rw [h] at hq
        have := hmapc q (Dict.mem_delete _ _ q hq)
        omega

theorem toStore_applyOps (w : World) (options : Options) (ops : List Op) (m : Mem)
    (hwf : WellFormed m) :
    toStore (applyOps w options m ops) = Shrubbery.applyOps w options (toStore m) ops ∧
    WellFormed (applyOps w options m ops) := by
  induction ops generalizing m with
  | nil => exact ⟨rfl, hwf⟩
  | cons op ops ih =>
    cases op with
    | add name key fn opts =>
      obtain ⟨h1, h2⟩ := ih (add w options m name key fn opts)
        (heap_add_wf w options m name key fn opts hwf)
      refine ⟨?_, h2⟩
      show toStore (applyOps w options (add w options m name key fn opts) ops) = _
      rw [h1, toStore_add w options m name key fn opts hwf]
      rfl
    | remove name key fn =>
      obtain ⟨h1, h2⟩ := ih (remove m name key fn) (heap_remove_wf m name key fn hwf)
      refine ⟨?_, h2⟩
      show toStore (applyOps w options (remove m name key fn) ops) = _
      rw [h1, toStore_remove m name key fn hwf]
      rfl
    | exec name key =>
      obtain ⟨h1, h2⟩ := ih (creade m name).1 (heap_creade_wf m name hwf).1
      refine ⟨?_, h2⟩
      show toStore (applyOps w options (creade m name).1 ops) = _
      rw [h1, (toStore_creade m name).1]
      rfl

theorem heap_execLoop_refines (w : World) (options : Options) (args : List JSVal)
    (keys : Nat) (m0 : Mem) (hvalid : keys < m0.arrays.length)
    (fuel i : Nat) (m : Mem) (result : JSVal)
    (hext : Extends m0 m) (hwf : WellFormed m) (hi : i ≤ (m0.read keys).length)
    (hfuel : (m0.read keys).length - i < fuel) :
    ∃ r, execLoop w options args keys fuel i m result = some r ∧
      r.steps = (Shrubbery.execLoop w options args ((m0.read keys).drop i)
        (toStore m) result).steps ∧
      r.outcome = (Shrubbery.execLoop w options args ((m0.read keys).drop i)
        (toStore m) result).outcome ∧
      r.reported = (Shrubbery.execLoop w options args ((m0.read keys).drop i)
        (toStore m) result).reported ∧
      toStore r.mem = (Shrubbery.execLoop w options args ((m0.read keys).drop i)
        (toStore m) result).store ∧
      WellFormed r.mem := by
  induction fuel generalizing i m result with
  | zero => omega
  | succ fuel ih =>
    have hread : m.read keys = m0.read keys := read_of_extends hext hvalid
    rw [execLoop, hread]
    cases hget : (m0.read keys)[i]? with
    | none =>
      have hlen : (m0.read keys).length ≤ i := List.getElem?_eq_none_iff.1 hget
      rw [List.drop_eq_nil_of_le hlen]
      exact ⟨_, rfl, rfl, rfl, rfl, rfl, hwf⟩
    | some plugin =>
      obtain ⟨hlt, hplugin⟩ := List.getElem?_eq_some_iff.1 hget
      have hdrop : (m0.read keys).drop i = plugin :: (m0.read keys).drop (i + 1) := by
        rw [List.drop_eq_getElem_cons hlt, hplugin]
      rw [hdrop]
      obtain ⟨hst1, hwf1⟩ := toStore_applyOps w options
        (w.call plugin.runner.fn.ref options.context
          (runnerArgs plugin.runner result args)).ops m hwf
      have hext1 : Extends m0 (applyOps w options m
          (w.call plugin.runner.fn.ref options.context
            (runnerArgs plugin.runner result args)).ops) :=
        extends_trans hext (heap_applyOps_extends w options _ m)
      simp only [Shrubbery.execLoop]
      cases hout : attempt w plugin.runner
          (w.call plugin.runner.fn.ref options.context
            (runnerArgs plugin.runner result args)) with
      | fulfilled v =>
        obtain ⟨r, hr, h1, h2, h3, h4, h5⟩ :=
          ih (i + 1) _ (v.or result) hext1 hwf1 (by omega) (by omega)
        rw [hst1] at h1 h2 h3 h4
        simp only [hr]
        exact ⟨_, rfl, by rw [h1], h2, h3, h4, h5⟩
      | rejected e =>
        simp only []
        cases herr : options.error with
        | func cb =>
          simp only []
          obtain ⟨hst2, hwf2⟩ := toStore_applyOps w options
            (w.call cb options.toVal [e]).ops _ hwf1
          rw [hst1] at hst2
          have hext2 : Extends m0 (applyOps w options (applyOps w options m
              (w.call plugin.runner.fn.ref options.context
                (runnerArgs plugin.runner result args)).ops)
              (w.call cb options.toVal [e]).ops) :=
            extends_trans hext1 (heap_applyOps_extends w options _ _)
          cases hcb : (w.call cb options.toVal [e]).completion with
          | throws e2 => exact ⟨_, rfl, rfl, rfl, rfl, hst2, hwf2⟩
          | returns pd =>
            obtain ⟨r, hr, h1, h2, h3, h4, h5⟩ :=
              ih (i + 1) _ result hext2 hwf2 (by omega) (by omega)
            rw [hst2] at h1 h2 h3 h4
            simp only [hr]
            exact ⟨_, rfl, by rw [h1], h2, by rw [h3], h4, h5⟩
        | undefined | null | bool _ | num _ | nan | str _ | obj _ =>
          exact ⟨_, rfl, rfl, rfl, rfl, hst1, hwf1⟩

/-- The two levels agree: on a well-formed memory, `add` and `remove` on the
memory store what `add` and `remove` on the store of values store, and `exec`
on the memory, given more turns than the array of the key has elements, makes
the turns, settles and reports as `exec` on the store of values does, and
leaves the memory of the store that one leaves. -/
theorem heap_refines (w : World) (options : Options) (m : Mem) (hwf : WellFormed m) :
    (∀ name key fn opts?,
      toStore (add w options m name key fn opts?) =
        Shrubbery.add w options (toStore m) name key fn opts? ∧
      WellFormed (add w options m name key fn opts?)) ∧
    (∀ name key fn,
      toStore (remove m name key fn) = Shrubbery.remove (toStore m) name key fn ∧
      WellFormed (remove m name key fn)) ∧
    (∀ name key data args fuel,
      ((stored (toStore m) name key).getD []).length < fuel →
      ∃ r, exec w options m name key data args fuel = some r ∧
        r.steps = (Shrubbery.exec w options (toStore m) name key data args).steps ∧
        r.outcome = (Shrubbery.exec w options (toStore m) name key data args).outcome ∧
        r.reported = (Shrubbery.exec w options (toStore m) name key data args).reported ∧
        toStore r.mem = (Shrubbery.exec w options (toStore m) name key data args).store ∧
        WellFormed r.mem) := by
  refine ⟨fun name key fn opts? => ⟨toStore_add w options m name key fn opts? hwf,
      heap_add_wf w options m name key fn opts? hwf⟩,
    fun name key fn => ⟨toStore_remove m name key fn hwf, heap_remove_wf m name key fn hwf⟩,
    ?_⟩
  intro name key data args fuel hfuel
  obtain ⟨hwfc, hmapc⟩ := heap_creade_wf m name hwf
  obtain ⟨hs1, _⟩ := toStore_creade m name
  have hc := heap_creade_arrays m name
  rw [exec_eq]
  rw [stored_toStore] at hfuel ⊢
  unfold exec
  simp only []
  cases hk : (creade m name).2.get key with
  | none => exact ⟨_, rfl, rfl, rfl, rfl, hs1, hwfc⟩
  | some keys =>
    rw [hk] at hfuel
    simp only [Option.map_some', Option.getD_some] at hfuel ⊢
    have hvalid : keys < (creade m name).1.arrays.length := by
      rw [hc]
      exact hmapc _ (Dict.mem_of_get _ _ _ hk)
    have hrd : (creade m name).1.read keys = m.read keys := read_creade m name keys
    obtain ⟨r, hr, h1, h2, h3, h4, h5⟩ := heap_execLoop_refines w options args keys
      (creade m name).1 hvalid fuel 0 (creade m name).1 (data.orDefault (.obj []))
      (extends_refl _) hwfc (Nat.zero_le _) (by rw [hrd]; omega)
    rw [List.drop_zero, hrd, hs1] at h1 h2 h3 h4
    exact ⟨r, hr, h1, h2, h3, h4, h5⟩

end Heap

/-! ## The module over a plain object -/

namespace Plain

theorem plain_creade_of_ordinary (mapping : Store) (name : String)
    (h : Ordinary mapping name) :
    creade mapping name =
      ((Shrubbery.creade mapping name).1, some (Shrubbery.creade mapping name).2) := by
  unfold creade Shrubbery.creade hasProperty Ordinary Dict.has at *
  cases hm : mapping.get name with
  | some map => simp
  | none =>
    rw [hm] at h
    have hc : objectPrototypeNames.contains name = false := by
      rcases h with h | h
      · cases h
      · exact h
    simp only [Option.isSome_none, hc, Bool.or_false, Bool.false_eq_true, if_false]

theorem plain_creade_of_inherited (mapping : Store) (name : String)
    (hm : mapping.get name = none) (hin : objectPrototypeNames.contains name = true) :
    creade mapping name = (mapping, none) := by
  unfold creade hasProperty
  rw [hin, Bool.or_true, if_pos rfl, hm]

theorem plain_add_of_ordinary (w : World) (options : Options) (mapping : Store)
    (name key : String) (fn : JSFunction) (opts? : Option Opts)
    (h : Ordinary mapping name) :
    add w options mapping name key fn opts? =
      .ok (Shrubbery.add w options mapping name key fn opts?) := by
  unfold add
  rw [plain_creade_of_ordinary mapping name h]
  rfl

theorem plain_remove_of_ordinary (mapping : Store) (name key : String)
    (fn : Option JSFunction) (h : Ordinary mapping name) :
    remove mapping name key fn = .ok (Shrubbery.remove mapping name key fn) := by
  unfold remove Shrubbery.remove
  rw [plain_creade_of_ordinary mapping name h]
  simp only []
  cases (Shrubbery.creade mapping name).2.get key with
  | none => rfl
  | some keys =>
    simp only []
    split <;> rfl

theorem plain_add_of_inherited (w : World) (options : Options) (mapping : Store)
    (name key : String) (fn : JSFunction) (opts? : Option Opts)
    (hm : mapping.get name = none) (hin : objectPrototypeNames.contains name = true) :
    add w options mapping name key fn opts? = .error typeError := by
  unfold add
  rw [plain_creade_of_inherited mapping name hm hin]

theorem plain_remove_of_inherited (mapping : Store) (name key : String)
    (fn : Option JSFunction)
    (hm : mapping.get name = none) (hin : objectPrototypeNames.contains name = true) :
    remove mapping name key fn = .error typeError := by
  unfold remove
  rw [plain_creade_of_inherited mapping name hm hin]

/-- The turns of the loop, its settlement and the errors it reports do not
depend on the store: over a plain object they are those of the loop above. -/
theorem plain_execLoop_run (w : World) (options : Options) (args : List JSVal)
    (hs : List Entry) (mapping mapping2 : Store) (result : JSVal) :
    (execLoop w options args hs mapping result).steps =
      (Shrubbery.execLoop w options args hs mapping2 result).steps ∧
    (execLoop w options args hs mapping result).outcome =
      (Shrubbery.execLoop w options args hs mapping2 result).outcome ∧
    (execLoop w options args hs mapping result).reported =
      (Shrubbery.execLoop w options args hs mapping2 result).reported := by
  induction hs generalizing mapping mapping2 result with
  | nil => exact ⟨rfl, rfl, rfl⟩
  | cons plugin rest ih =>
    simp only [execLoop, Shrubbery.execLoop]
    cases hout : attempt w plugin.runner
        (w.call plugin.runner.fn.ref options.context
          (runnerArgs plugin.runner result args)) with
    | fulfilled v =>
      simp only []
      obtain ⟨h1, h2, h3⟩ := ih
        (applyOps w options mapping (w.call plugin.runner.fn.ref options.context
          (runnerArgs plugin.runner result args)).ops)
        (Shrubbery.applyOps w options mapping2 (w.call plugin.runner.fn.ref options.context
          (runnerArgs plugin.runner result args)).ops) (v.or result)
      exact ⟨by rw [h1], h2, h3⟩
    | rejected e =>
      simp only []
      cases herr : options.error with
      | func cb =>
        simp only []
        cases hcb : (w.call cb options.toVal [e]).completion with
        | throws e2 => exact ⟨rfl, rfl, rfl⟩
        | returns pd =>
          simp only []
          obtain ⟨h1, h2, h3⟩ := ih
            (applyOps w options (applyOps w options mapping
              (w.call plugin.runner.fn.ref options.context
                (runnerArgs plugin.runner result args)).ops) (w.call cb options.toVal [e]).ops)
            (Shrubbery.applyOps w options (Shrubbery.applyOps w options mapping2
              (w.call plugin.runner.fn.ref options.context
                (runnerArgs plugin.runner result args)).ops) (w.call cb options.toVal [e]).ops)
            result
          exact ⟨by rw [h1], h2, by rw [h3]⟩
      | undefined | null | bool _ | num _ | nan | str _ | obj _ => exact ⟨rfl, rfl, rfl⟩

theorem plain_execLoop_store_of_no_ops (w : World) (options : Options) (args : List JSVal)
    (hquiet : ∀ ref receiver callArgs, (w.call ref receiver callArgs).ops = [])
    (hs : List Entry) (mapping : Store) (result : JSVal) :
    (execLoop w options args hs mapping result).store = mapping := by
  induction hs generalizing result with
  | nil => rfl
  | cons plugin rest ih =>
    simp only [execLoop, hquiet, applyOps, List.foldl_nil]
    split
    · exact ih _
    · split
      · split
        · rfl
        · exact ih _
      · rfl

theorem plain_exec_of_ordinary (w : World) (options : Options) (mapping : Store)
    (name key : String) (data : JSVal) (args : List JSVal) (h : Ordinary mapping name) :
    exec w options mapping name key data args =
      match stored mapping name key with
      | none =>
        ⟨(Shrubbery.creade mapping name).1, .fulfilled (data.orDefault (.obj [])), [], []⟩
      | some keys =>
        execLoop w options args keys (Shrubbery.creade mapping name).1
          (data.orDefault (.obj [])) := by
  unfold exec
  rw [plain_creade_of_ordinary mapping name h, ← creade_snd_get]

theorem plain_exec_of_inherited (w : World) (options : Options) (mapping : Store)
    (name key : String) (data : JSVal) (args : List JSVal)
    (hm : mapping.get name = none) (hin : objectPrototypeNames.contains name = true) :
    exec w options mapping name key data args = ⟨mapping, .rejected typeError, [], []⟩ := by
  unfold exec
  rw [plain_creade_of_inherited mapping name hm hin]

/-- On a plain object `exec` makes the turns of `exec` above, settles and
reports as it does, at every name that is an own property or no property. -/
theorem plain_exec_run (w : World) (options : Options) (mapping : Store)
    (name key : String) (data : JSVal) (args : List JSVal) (h : Ordinary mapping name) :
    (exec w options mapping name key data args).steps =
      (Shrubbery.exec w options mapping name key data args).steps ∧
    (exec w options mapping name key data args).outcome =
      (Shrubbery.exec w options mapping name key data args).outcome ∧
    (exec w options mapping name key data args).reported =
      (Shrubbery.exec w options mapping name key data args).reported := by
  rw [plain_exec_of_ordinary w options mapping name key data args h, exec_eq]
  cases stored mapping name key with
  | none => exact ⟨rfl, rfl, rfl⟩
  | some keys => exact plain_execLoop_run w options args keys _ _ _

/-! ## `exec` and `add` at a name the plain object inherits -/

/-- C11: over a plain object the claim fails at the names the object inherits.
`shrubbery().exec('toString', 'foo')` has no handler under `('toString',
'foo')`, yet it makes no turn and rejects with the `TypeError` of `map.get`
instead of resolving to `data`, and so does `exec` at every inherited name
without an own map.  At every other name the claim holds: with no stored array
`exec` resolves to `data` unchanged, to the empty object when `data` is omitted
(`undefined`), and invokes neither a handler nor the error callback. -/
theorem exec_rejects_at_inherited_name :
    stored ([] : Store) "toString" "foo" = none ∧
    exec sampleWorld plainOptions [] "toString" "foo" sampleData [] =
      ⟨[], .rejected typeError, [], []⟩ ∧
    (exec sampleWorld plainOptions [] "toString" "foo" sampleData []).outcome ≠
      .fulfilled sampleData ∧
    (∀ (w : World) (options : Options) (mapping : Store) (name key : String) (data : JSVal)
        (args : List JSVal),
      mapping.get name = none → objectPrototypeNames.contains name = true →
      exec w options mapping name key data args = ⟨mapping, .rejected typeError, [], []⟩) ∧
    (∀ (w : World) (options : Options) (mapping : Store) (name key : String) (data : JSVal)
        (args : List JSVal),
      Ordinary mapping name → stored mapping name key = none →
      (exec w options mapping name key data args).outcome =
        .fulfilled (data.orDefault (.obj [])) ∧
      (data ≠ .undefined →
        (exec w options mapping name key data args).outcome = .fulfilled data) ∧
      (exec w options mapping name key .undefined args).outcome = .fulfilled (.obj []) ∧
      (exec w options mapping name key data args).steps = [] ∧
      (exec w options mapping name key data args).reported = []) := by
  refine ⟨rfl, rfl, (fun h => by cases h), ?_, ?_⟩
  · intro w options mapping name key data args hm hin
    exact plain_exec_of_inherited w options mapping name key data args hm hin
  · intro w options mapping name key data args hord hnone
    rw [plain_exec_of_ordinary w options mapping name key data args hord,
      plain_exec_of_ordinary w options mapping name key .undefined args hord, hnone]
    refine ⟨rfl, fun h => ?_, rfl, rfl, rfl⟩
    show Settlement.fulfilled (data.orDefault (.obj [])) = _
    rw [orDefault_of_ne_undefined data _ h]

/-- C15: over a plain object the claim fails at the names the object inherits.
`shrubbery().add('toString', 'example', fn)` finds no stored array under
`('toString', 'example')`, yet it throws the `TypeError` of `map.get` and stores
nothing, and so does `add` at every inherited name without an own map.  At
every other name the claim holds: with no stored array `add` returns and leaves
under the key an array of exactly one entry, whose function is `fn` and whose
priority is `opts.priority`, or `100` when no priority (or no `opts`) is given,
in the map of `name`, which is a new map holding just this key when there was
none. -/
theorem add_throws_at_inherited_name :
    stored ([] : Store) "toString" "example" = none ∧
    add sampleWorld plainOptions [] "toString" "example" (plainFn 1) none =
      .error typeError ∧
    (∀ (w : World) (options : Options) (mapping : Store) (name key : String)
        (fn : JSFunction) (opts? : Option Opts),
      mapping.get name = none → objectPrototypeNames.contains name = true →
      add w options mapping name key fn opts? = .error typeError) ∧
    (∀ (w : World) (options : Options) (mapping : Store) (name key : String)
        (fn : JSFunction) (opts? : Option Opts),
      Ordinary mapping name → stored mapping name key = none →
      ∃ st, add w options mapping name key fn opts? = .ok st ∧
        stored st name key = some [entryOf w options fn opts?] ∧
        (entryOf w options fn opts?).fn = fn ∧
        (entryOf w options fn opts?).priority =
          (match opts? with
            | some opts => opts.priority.getD 100
            | none => 100) ∧
        (∃ map, st.get name = some map) ∧
        (mapping.get name = none →
          st.get name = some [(key, [entryOf w options fn opts?])])) := by
  refine ⟨rfl, rfl, ?_, ?_⟩
  · intro w options mapping name key fn opts? hm hin
    exact plain_add_of_inherited w options mapping name key fn opts? hm hin
  · intro w options mapping name key fn opts? hord hnone
    obtain ⟨h1, h2, h3, h4⟩ := add_first_entry w options mapping name key fn opts? hnone
    refine ⟨_, plain_add_of_ordinary w options mapping name key fn opts? hord,
      h1, h2, h3, ?_, h4⟩
    rw [add_eq]
    exact ⟨_, Dict.get_set_self _ _ _⟩

/-! ## `remove` and `exec` where `creade` creates the map -/

/-- C14: as amended, at a name that is an own property of the plain object or
no property of it, when `(name, key)` has no stored array, `remove(name, key,
fn)` returns normally and leaves every stored array as it was; the store itself
is unchanged when `name` already has a map, and has gained an empty map under
`name` (created by `creade`) when it had none. -/
theorem remove_where_nothing_is_stored (mapping : Store) (name key : String)
    (fn : Option JSFunction)
    (hord : Ordinary mapping name) (hnone : stored mapping name key = none) :
    ∃ st, remove mapping name key fn = .ok st ∧
      (∀ map, mapping.get name = some map → st = mapping) ∧
      (mapping.get name = none → st = mapping.set name []) ∧
      (∀ name2 key2, stored st name2 key2 = stored mapping name2 key2) := by
  obtain ⟨_, h2, h3, h4⟩ := remove_without_list mapping name key fn hnone
  exact ⟨_, plain_remove_of_ordinary mapping name key fn hord, h2, h3, h4⟩

theorem remove_where_nothing_is_stored_witness :
    Ordinary ([("map", [])] : Store) "map" ∧
    stored ([("map", [])] : Store) "map" "example" = none ∧
    Ordinary ([] : Store) "other" ∧
    stored ([] : Store) "other" "example" = none ∧
    (∃ st, remove ([("map", [])] : Store) "map" "example" none = .ok st ∧
      (∀ map, Dict.get ([("map", [])] : Store) "map" = some map → st = [("map", [])]) ∧
      (Dict.get ([("map", [])] : Store) "map" = none →
        st = Dict.set ([("map", [])] : Store) "map" []) ∧
      (∀ name2 key2, stored st name2 key2 = stored ([("map", [])] : Store) name2 key2)) ∧
    (∃ st, remove ([] : Store) "other" "example" (some (plainFn 1)) = .ok st ∧
      (∀ map, Dict.get ([] : Store) "other" = some map → st = []) ∧
      (Dict.get ([] : Store) "other" = none → st = Dict.set ([] : Store) "other" []) ∧
      (∀ name2 key2, stored st name2 key2 = stored ([] : Store) name2 key2)) ∧
    remove ([("map", [])] : Store) "map" "example" none = .ok [("map", [])] ∧
    remove ([] : Store) "other" "example" (some (plainFn 1)) = .ok [("other", [])] :=
  ⟨Or.inl rfl, rfl, Or.inr rfl, rfl,
    remove_where_nothing_is_stored [("map", [])] "map" "example" none (Or.inl rfl) rfl,
    remove_where_nothing_is_stored [] "other" "example" (some (plainFn 1)) (Or.inr rfl) rfl,
    rfl, rfl⟩

/-- C18: as amended, at a name that is an own property of the plain object or
no property of it, when the user functions make no call of `add`, `remove` or
`exec`, `exec` adds, removes and reorders no key and no array: every stored
array is as before, the store is unchanged when `name` already has a map, and
it has gained an empty map under `name` (created by `creade`) when it had none. -/
theorem exec_leaves_lists (w : World) (options : Options) (mapping : Store)
    (name key : String) (data : JSVal) (args : List JSVal)
    (hquiet : ∀ ref receiver callArgs, (w.call ref receiver callArgs).ops = [])
    (hord : Ordinary mapping name) :
    (∀ map, mapping.get name = some map →
      (exec w options mapping name key data args).store = mapping) ∧
    (mapping.get name = none →
      (exec w options mapping name key data args).store = mapping.set name []) ∧
    (∀ name2 key2,
      stored (exec w options mapping name key data args).store name2 key2 =
        stored mapping name2 key2) := by
  have h : (exec w options mapping name key data args).store =
      (Shrubbery.creade mapping name).1 := by
    rw [plain_exec_of_ordinary w options mapping name key data args hord]
    cases stored mapping name key with
    | none => rfl
    | some keys => exact plain_execLoop_store_of_no_ops w options args hquiet keys _ _
  refine ⟨fun map hm => ?_, fun hm => ?_, fun name2 key2 => ?_⟩
  · rw [h, creade_fst_of_some mapping name map hm]
  · rw [h, creade_fst_of_none mapping name hm]
  · rw [h, stored_creade]

theorem exec_leaves_lists_witness :
    (∀ ref receiver callArgs, (quietWorld.call ref receiver callArgs).ops = []) ∧
    Ordinary sampleStore "map" ∧
    Ordinary sampleStore "whatever" ∧
    (exec quietWorld plainOptions sampleStore "map" "example" sampleData []).store =
      sampleStore ∧
    (exec quietWorld plainOptions sampleStore "whatever" "foo" sampleData []).store =
      sampleStore.set "whatever" [] ∧
    (exec quietWorld plainOptions sampleStore "map" "example" sampleData []).outcome =
      .fulfilled (.obj [("send", .str "help")]) ∧
    ((exec quietWorld plainOptions sampleStore "map" "example" sampleData []).steps.map
      (fun (s : Step) => s.entry.fn.ref)) = (sampleStore.get "map").elim [] (fun map =>
        ((Dict.get map "example").getD []).map (fun (e : Entry) => e.fn.ref)) :=
  ⟨fun _ _ _ => rfl, Or.inl rfl, Or.inr rfl,
    (exec_leaves_lists quietWorld plainOptions sampleStore "map" "example" sampleData []
      (fun _ _ _ => rfl) (Or.inl rfl)).1 _ rfl,
    (exec_leaves_lists quietWorld plainOptions sampleStore "whatever" "foo" sampleData []
      (fun _ _ _ => rfl) (Or.inr rfl)).2.1 rfl,
    rfl, rfl⟩

end Plain

end Shrubbery
